import Mathlib

/-!
Verification development for the rosetta-ravencoin Transaction Construction
Engine.  The excerpted sources of the repository contain the construction
test suites, chain parameters and wire constants; the construction engine
itself (transaction codec, sighash calculator, fee estimator, phase
orchestration) is not among the excerpted files, so those components are
modelled from the specification, as flagged on each definition.

Bytes are modelled as natural numbers (each meant to lie below 256);
machine integers are `Nat`/`Int` with explicit reduction modulo powers of
two where the code overflows.
-/

namespace RosettaRavencoin

/-! ## Little-endian integer encodings -/

/-- Modelled from the spec: 2-byte little-endian encoding used by the
transaction wire format. -/
def u16LE (n : Nat) : List Nat :=
  [n % 256, n / 256 % 256]

/-- Modelled from the spec: 4-byte little-endian encoding (version, sequence,
locktime, sighash-type suffix). -/
def u32LE (n : Nat) : List Nat :=
  [n % 256, n / 256 % 256, n / 256 ^ 2 % 256, n / 256 ^ 3 % 256]

/-- Modelled from the spec: 8-byte little-endian encoding (output values and
the spent value committed by the witness sighash). -/
def u64LE (n : Nat) : List Nat :=
  [n % 256, n / 256 % 256, n / 256 ^ 2 % 256, n / 256 ^ 3 % 256,
   n / 256 ^ 4 % 256, n / 256 ^ 5 % 256, n / 256 ^ 6 % 256, n / 256 ^ 7 % 256]

/-- Recombine little-endian bytes into the number they encode. -/
def bytesToNatLE : List Nat → Nat
  | [] => 0
  | b :: bs => b + 256 * bytesToNatLE bs

/-- Modelled from the spec: Bitcoin-style CompactSize count prefix used for
input/output/script/witness counts. -/
def compactSize (n : Nat) : List Nat :=
  if n < 253 then [n]
  else if n < 2 ^ 16 then 253 :: u16LE n
  else if n < 2 ^ 32 then 254 :: u32LE n
  else 255 :: u64LE n

/-! ## Byte-stream readers (deserialization primitives) -/

/-- Read one byte from the stream. -/
def readByte : List Nat → Option (Nat × List Nat)
  | [] => none
  | b :: rest => some (b, rest)

/-- Read exactly `n` bytes from the stream. -/
def readBytes (n : Nat) (s : List Nat) : Option (List Nat × List Nat) :=
  if n ≤ s.length then some (s.take n, s.drop n) else none

/-- Read a 2-byte little-endian integer. -/
def readU16 (s : List Nat) : Option (Nat × List Nat) := do
  let (bs, rest) ← readBytes 2 s
  some (bytesToNatLE bs, rest)

/-- Read a 4-byte little-endian integer. -/
def readU32 (s : List Nat) : Option (Nat × List Nat) := do
  let (bs, rest) ← readBytes 4 s
  some (bytesToNatLE bs, rest)

/-- Read an 8-byte little-endian integer. -/
def readU64 (s : List Nat) : Option (Nat × List Nat) := do
  let (bs, rest) ← readBytes 8 s
  some (bytesToNatLE bs, rest)

/-- Read a CompactSize count. -/
def readCompactSize (s : List Nat) : Option (Nat × List Nat) := do
  let (b, rest) ← readByte s
  if b < 253 then some (b, rest)
  else if b = 253 then readU16 rest
  else if b = 254 then readU32 rest
  else readU64 rest

/-! ## Round-trip lemmas for the primitives -/

theorem readBytes_append (xs rest : List Nat) :
    readBytes xs.length (xs ++ rest) = some (xs, rest) := by
  simp [readBytes, List.take_left, List.drop_left]

theorem bytesToNatLE_u16LE (n : Nat) (h : n < 2 ^ 16) :
    bytesToNatLE (u16LE n) = n := by
  simp only [u16LE, bytesToNatLE]
  omega

theorem bytesToNatLE_u32LE (n : Nat) (h : n < 2 ^ 32) :
    bytesToNatLE (u32LE n) = n := by
  simp only [u32LE, bytesToNatLE]
  omega

theorem bytesToNatLE_u64LE (n : Nat) (h : n < 2 ^ 64) :
    bytesToNatLE (u64LE n) = n := by
  simp only [u64LE, bytesToNatLE]
  omega

theorem u16LE_length (n : Nat) : (u16LE n).length = 2 := rfl

theorem u32LE_length (n : Nat) : (u32LE n).length = 4 := rfl

theorem u64LE_length (n : Nat) : (u64LE n).length = 8 := rfl

theorem readU16_append (n : Nat) (h : n < 2 ^ 16) (rest : List Nat) :
    readU16 (u16LE n ++ rest) = some (n, rest) := by
  have hb := readBytes_append (u16LE n) rest
  rw [u16LE_length] at hb
  simp [readU16, hb, bytesToNatLE_u16LE n h]

theorem readU32_append (n : Nat) (h : n < 2 ^ 32) (rest : List Nat) :
    readU32 (u32LE n ++ rest) = some (n, rest) := by
  have hb := readBytes_append (u32LE n) rest
  rw [u32LE_length] at hb
  simp [readU32, hb, bytesToNatLE_u32LE n h]

theorem readU64_append (n : Nat) (h : n < 2 ^ 64) (rest : List Nat) :
    readU64 (u64LE n ++ rest) = some (n, rest) := by
  have hb := readBytes_append (u64LE n) rest
  rw [u64LE_length] at hb
  simp [readU64, hb, bytesToNatLE_u64LE n h]

theorem readCompactSize_append (n : Nat) (h : n < 2 ^ 64) (rest : List Nat) :
    readCompactSize (compactSize n ++ rest) = some (n, rest) := by
  by_cases h1 : n < 253
  · simp [compactSize, h1, readCompactSize, readByte]
  · by_cases h2 : n < 2 ^ 16
    · have h2a : n < 65536 := by omega
      simp [compactSize, h1, h2a, readCompactSize, readByte, readU16_append n h2 rest]
    · by_cases h3 : n < 2 ^ 32
      · have h2a : ¬ n < 65536 := by omega
        have h3a : n < 4294967296 := by omega
        simp [compactSize, h1, h2a, h3a, readCompactSize, readByte, readU32_append n h3 rest]
      · have h2a : ¬ n < 65536 := by omega
        have h3a : ¬ n < 4294967296 := by omega
        simp [compactSize, h1, h2a, h3a, readCompactSize, readByte, readU64_append n h rest]

/-! ## Transaction data model

Modelled from the spec (§4.4): the wire layout is version (4 bytes), input
count, inputs (prior hash, prior index, unlock script, sequence), output
count, outputs (value, locking script), an optional witness stack per input
(present exactly when serializing with witness and some input carries one,
signalled by the marker/flag byte pair 0x00 0x01 after the version), and
locktime (4 bytes). -/

/-- A reference to a previously created output: transaction hash plus output
index. -/
structure OutPoint where
  txid : List Nat
  vout : Nat
deriving DecidableEq, Repr

/-- A transaction input: prior outpoint, unlock script, sequence number and
(for witness-template inputs) a witness stack. -/
structure TxIn where
  prevOut : OutPoint
  scriptSig : List Nat
  sequence : Nat
  witness : List (List Nat)
deriving DecidableEq, Repr

/-- A transaction output: value in base units plus locking script. -/
structure TxOut where
  value : Nat
  pkScript : List Nat
deriving DecidableEq, Repr

/-- A transaction. -/
structure MsgTx where
  version : Nat
  txIn : List TxIn
  txOut : List TxOut
  lockTime : Nat
deriving DecidableEq, Repr

/-- Concatenate the encodings of the elements of a list. -/
def concatList {α : Type} (f : α → List Nat) : List α → List Nat
  | [] => []
  | a :: as => f a ++ concatList f as

/-- Serialize an outpoint: 32-byte hash then 4-byte little-endian index. -/
def serOutPoint (o : OutPoint) : List Nat :=
  o.txid ++ u32LE o.vout

/-- Serialize an input (without its witness stack). -/
def serTxIn (i : TxIn) : List Nat :=
  serOutPoint i.prevOut ++ compactSize i.scriptSig.length ++ i.scriptSig ++ u32LE i.sequence

/-- Serialize an output. -/
def serTxOut (o : TxOut) : List Nat :=
  u64LE o.value ++ compactSize o.pkScript.length ++ o.pkScript

/-- Serialize one input's witness stack: item count then length-prefixed
items. -/
def serWitnessStack (w : List (List Nat)) : List Nat :=
  compactSize w.length ++ concatList (fun item => compactSize item.length ++ item) w

/-- Whether any input of the transaction carries a witness stack. -/
def hasWitness (tx : MsgTx) : Bool :=
  tx.txIn.any (fun i => !i.witness.isEmpty)

/-- Modelled from the spec (§4.4): serialize a transaction, including the
marker/flag byte pair and the per-input witness section exactly when
`includeWitness` is set and some input carries a witness. -/
def serializeTx (tx : MsgTx) (includeWitness : Bool) : List Nat :=
  let useW := includeWitness && hasWitness tx
  u32LE tx.version
    ++ (if useW then [0, 1] else [])
    ++ compactSize tx.txIn.length ++ concatList serTxIn tx.txIn
    ++ compactSize tx.txOut.length ++ concatList serTxOut tx.txOut
    ++ (if useW then concatList (fun i => serWitnessStack i.witness) tx.txIn else [])
    ++ u32LE tx.lockTime

/-! ## Transaction parsing -/

/-- Read a CompactSize count followed by that many bytes. -/
def readVarBytes (s : List Nat) : Option (List Nat × List Nat) := do
  let (n, s1) ← readCompactSize s
  readBytes n s1

/-- Read an outpoint. -/
def readOutPoint (s : List Nat) : Option (OutPoint × List Nat) := do
  let (h, s1) ← readBytes 32 s
  let (v, s2) ← readU32 s1
  some (⟨h, v⟩, s2)

/-- Read an input (witness stacks are attached separately). -/
def readTxIn (s : List Nat) : Option (TxIn × List Nat) := do
  let (o, s1) ← readOutPoint s
  let (sc, s2) ← readVarBytes s1
  let (q, s3) ← readU32 s2
  some (⟨o, sc, q, []⟩, s3)

/-- Read an output. -/
def readTxOut (s : List Nat) : Option (TxOut × List Nat) := do
  let (v, s1) ← readU64 s
  let (pk, s2) ← readVarBytes s1
  some (⟨v, pk⟩, s2)

/-- Read `k` consecutive items with the item reader `p`. -/
def readList {α : Type} (p : List Nat → Option (α × List Nat)) :
    Nat → List Nat → Option (List α × List Nat)
  | 0, s => some ([], s)
  | k + 1, s => do
    let (a, s1) ← p s
    let (as, s2) ← readList p k s1
    some (a :: as, s2)

/-- Read one input's witness stack. -/
def readWitnessStack (s : List Nat) : Option (List (List Nat) × List Nat) := do
  let (k, s1) ← readCompactSize s
  readList readVarBytes k s1

/-- Reattach parsed witness stacks to parsed inputs. -/
def attachWitness (ins : List TxIn) (ws : List (List (List Nat))) : List TxIn :=
  List.zipWith (fun i w => { i with witness := w }) ins ws

/-- Modelled from the spec (§4.4): deserialize a transaction, recognizing the
witness format by the marker/flag pair 0x00 0x01 following the version and
requiring the whole input to be consumed. -/
def deserializeTx (s : List Nat) : Option MsgTx := do
  let (v, s1) ← readU32 s
  if s1.take 2 = [0, 1] then do
    let (nIn, s3) ← readCompactSize (s1.drop 2)
    let (ins, s4) ← readList readTxIn nIn s3
    let (nOut, s5) ← readCompactSize s4
    let (outs, s6) ← readList readTxOut nOut s5
    let (ws, s7) ← readList readWitnessStack nIn s6
    let (lt, s8) ← readU32 s7
    if s8 = [] then some ⟨v, attachWitness ins ws, outs, lt⟩ else none
  else do
    let (nIn, s3) ← readCompactSize s1
    let (ins, s4) ← readList readTxIn nIn s3
    let (nOut, s5) ← readCompactSize s4
    let (outs, s6) ← readList readTxOut nOut s5
    let (lt, s7) ← readU32 s6
    if s7 = [] then some ⟨v, ins, outs, lt⟩ else none

/-! ## Codec round trip -/

/-- Wellformedness of an input for serialization round trips. -/
def WfTxIn (i : TxIn) : Prop :=
  i.prevOut.txid.length = 32 ∧ i.prevOut.vout < 2 ^ 32 ∧ i.sequence < 2 ^ 32 ∧
    i.scriptSig.length < 2 ^ 64 ∧ i.witness.length < 2 ^ 64 ∧
    ∀ w ∈ i.witness, w.length < 2 ^ 64

/-- Wellformedness of a transaction for serialization round trips: bounded
fields and at least one input (a zero-input serialization would collide with
the witness marker). -/
def WfTx (tx : MsgTx) : Prop :=
  tx.version < 2 ^ 32 ∧ tx.lockTime < 2 ^ 32 ∧ tx.txIn ≠ [] ∧
    tx.txIn.length < 2 ^ 64 ∧ tx.txOut.length < 2 ^ 64 ∧
    (∀ i ∈ tx.txIn, WfTxIn i) ∧
    (∀ o ∈ tx.txOut, o.value < 2 ^ 64 ∧ o.pkScript.length < 2 ^ 64)

instance (i : TxIn) : Decidable (WfTxIn i) := by
  unfold WfTxIn; infer_instance

instance (tx : MsgTx) : Decidable (WfTx tx) := by
  unfold WfTx; infer_instance

/-- An input with its witness stack removed, as the input section of the wire
format carries it. -/
def stripIn (i : TxIn) : TxIn :=
  { i with witness := [] }

theorem concatList_nil {α : Type} (f : α → List Nat) : concatList f [] = [] := rfl

theorem concatList_cons {α : Type} (f : α → List Nat) (a : α) (as : List α) :
    concatList f (a :: as) = f a ++ concatList f as := rfl

theorem readVarBytes_append (xs rest : List Nat) (h : xs.length < 2 ^ 64) :
    readVarBytes (compactSize xs.length ++ (xs ++ rest)) = some (xs, rest) := by
  simp [readVarBytes, readCompactSize_append xs.length h, readBytes_append]

theorem readOutPoint_append (o : OutPoint) (rest : List Nat)
    (h32 : o.txid.length = 32) (hv : o.vout < 2 ^ 32) :
    readOutPoint (serOutPoint o ++ rest) = some (o, rest) := by
  have hb := readBytes_append o.txid (u32LE o.vout ++ rest)
  rw [h32] at hb
  simp [readOutPoint, serOutPoint, List.append_assoc, hb, readU32_append o.vout hv rest]

theorem readTxIn_append (i : TxIn) (rest : List Nat) (hw : WfTxIn i) :
    readTxIn (serTxIn i ++ rest) = some (stripIn i, rest) := by
  obtain ⟨h32, hv, hs, hsc, -, -⟩ := hw
  simp only [serTxIn, List.append_assoc]
  simp [readTxIn, readOutPoint_append i.prevOut _ h32 hv,
    readVarBytes_append i.scriptSig _ hsc, readU32_append i.sequence hs rest, stripIn]

theorem readTxOut_append (o : TxOut) (rest : List Nat)
    (hv : o.value < 2 ^ 64) (hpk : o.pkScript.length < 2 ^ 64) :
    readTxOut (serTxOut o ++ rest) = some (o, rest) := by
  simp only [serTxOut, List.append_assoc]
  simp [readTxOut, readU64_append o.value hv, readVarBytes_append o.pkScript _ hpk]

theorem readList_append {α β : Type} (p : List Nat → Option (β × List Nat))
    (enc : α → List Nat) (f : α → β) (as : List α)
    (hp : ∀ a ∈ as, ∀ r : List Nat, p (enc a ++ r) = some (f a, r)) (rest : List Nat) :
    readList p as.length (concatList enc as ++ rest) = some (as.map f, rest) := by
  induction as with
  | nil => simp [readList, concatList_nil]
  | cons a as ih =>
    have ha := hp a (by simp) (concatList enc as ++ rest)
    have ih2 := ih (fun x hx r => hp x (by simp [hx]) r)
    simp [readList, concatList_cons, List.append_assoc, ha, ih2]

theorem readWitnessStack_append (w : List (List Nat)) (rest : List Nat)
    (hn : w.length < 2 ^ 64) (hitems : ∀ x ∈ w, x.length < 2 ^ 64) :
    readWitnessStack (serWitnessStack w ++ rest) = some (w, rest) := by
  have hl := readList_append readVarBytes
      (fun item => compactSize item.length ++ item) (fun x => x) w
      (fun x hx r => by
        have := readVarBytes_append x r (hitems x hx)
        simpa [List.append_assoc] using this) rest
  simp only [serWitnessStack, List.append_assoc]
  simp [readWitnessStack, readCompactSize_append w.length hn, hl]

theorem attachWitness_strip (ins : List TxIn) :
    attachWitness (ins.map stripIn) (ins.map TxIn.witness) = ins := by
  induction ins with
  | nil => rfl
  | cons i ins ih => simp [attachWitness, stripIn, List.zipWith] at ih ⊢

theorem compactSize_head_pos (n : Nat) (hn : 0 < n) :
    ∃ b t, compactSize n = b :: t ∧ b ≠ 0 := by
  unfold compactSize
  split_ifs with h1 h2 h3
  · exact ⟨n, [], rfl, by omega⟩
  · exact ⟨253, u16LE n, rfl, by omega⟩
  · exact ⟨254, u32LE n, rfl, by omega⟩
  · exact ⟨255, u64LE n, rfl, by omega⟩

theorem map_stripIn_eq_self (tx : MsgTx) (hw : hasWitness tx = false) :
    tx.txIn.map stripIn = tx.txIn := by
  have hall : ∀ i ∈ tx.txIn, i.witness = [] := by
    intro i hi
    have := List.any_eq_false.mp hw i hi
    simpa [List.isEmpty_iff] using this
  calc tx.txIn.map stripIn = tx.txIn.map id := by
        apply List.map_congr_left
        intro i hi
        have hwit := hall i hi
        cases i
        simp_all [stripIn]
    _ = tx.txIn := List.map_id tx.txIn

theorem serializeTx_witness_eq (tx : MsgTx) (hw : hasWitness tx = true) :
    serializeTx tx true =
      u32LE tx.version ++ ([0, 1] ++ (compactSize tx.txIn.length ++
        (concatList serTxIn tx.txIn ++ (compactSize tx.txOut.length ++
          (concatList serTxOut tx.txOut ++
            (concatList (fun i => serWitnessStack i.witness) tx.txIn ++
              u32LE tx.lockTime)))))) := by
  simp [serializeTx, hw, List.append_assoc]

theorem serializeTx_legacy_eq (tx : MsgTx) (hw : hasWitness tx = false) :
    serializeTx tx true =
      u32LE tx.version ++ (compactSize tx.txIn.length ++
        (concatList serTxIn tx.txIn ++ (compactSize tx.txOut.length ++
          (concatList serTxOut tx.txOut ++ u32LE tx.lockTime)))) := by
  simp [serializeTx, hw, List.append_assoc]

set_option maxHeartbeats 1600000 in
/-- Serializing a wellformed transaction (with its witness section when one is
present) and deserializing returns the transaction unchanged. -/
theorem deserializeTx_serializeTx (tx : MsgTx) (h : WfTx tx) :
    deserializeTx (serializeTx tx true) = some tx := by
  obtain ⟨hv, hlt, hne, hnin, hnout, hins, houts⟩ := h
  have hU32v := readU32_append tx.version hv
  have hCSin := readCompactSize_append tx.txIn.length hnin
  have hCSout := readCompactSize_append tx.txOut.length hnout
  have hIn := readList_append readTxIn serTxIn stripIn tx.txIn
    (fun a ha r => readTxIn_append a r (hins a ha))
  have hOut := readList_append readTxOut serTxOut (fun o => o) tx.txOut
    (fun o ho r => readTxOut_append o r (houts o ho).1 (houts o ho).2)
  have hU32l : readU32 (u32LE tx.lockTime) = some (tx.lockTime, []) := by
    simpa using readU32_append tx.lockTime hlt []
  by_cases hw : hasWitness tx
  · have hWit := readList_append readWitnessStack (fun i => serWitnessStack i.witness)
      TxIn.witness tx.txIn
      (fun i hi r => readWitnessStack_append i.witness r
        (hins i hi).2.2.2.2.1 (hins i hi).2.2.2.2.2)
    rw [serializeTx_witness_eq tx hw]
    unfold deserializeTx
    rw [hU32v]
    simp only [Option.bind_eq_bind, Option.some_bind]
    simp only [List.cons_append, List.nil_append, List.take_succ_cons, List.take_zero,
      List.drop_succ_cons, List.drop_zero, reduceIte]
    simp only [hCSin, Option.some_bind, hIn, hCSout, hOut, hWit, hU32l, reduceIte]
    simp [attachWitness_strip, List.map_id]
  · have hwf : hasWitness tx = false := by simpa using hw
    obtain ⟨b, t, hcs, hb⟩ := compactSize_head_pos tx.txIn.length
      (by cases htx : tx.txIn with
          | nil => exact absurd htx hne
          | cons a l => simp [htx])
    rw [serializeTx_legacy_eq tx hwf]
    unfold deserializeTx
    rw [hU32v]
    simp only [Option.bind_eq_bind, Option.some_bind]
    rw [hcs]
    simp only [List.cons_append, List.take_succ_cons]
    rw [if_neg (by simp [hb])]
    rw [← List.cons_append, ← hcs]
    simp only [hCSin, Option.some_bind, hIn, hCSout, hOut, hU32l, reduceIte]
    simp [map_stripIn_eq_self _ hwf]

/-! ## Hash functions

Modelled from the spec: the sighash calculator and the transaction
identifier use double SHA-256, and address derivation uses SHA-256 followed
by RIPEMD-160 (hash160).  Both hash functions are implemented here from
their standards (FIPS 180-4 and the RIPEMD-160 definition) over `Nat`
bytes/words. -/

/-- 2 to the 32nd, the word modulus of both hash functions. -/
def m32 : Nat := 4294967296

/-- 32-bit right rotation. -/
def rotr32 (x n : Nat) : Nat :=
  ((x >>> n) ||| (x <<< (32 - n))) % m32

/-- 32-bit left rotation. -/
def rotl32 (x n : Nat) : Nat :=
  ((x <<< n) ||| (x >>> (32 - n))) % m32

/-- Pack bytes into 32-bit big-endian words. -/
def beWords32 : List Nat → List Nat
  | a :: b :: c :: d :: rest => (((a * 256 + b) * 256 + c) * 256 + d) :: beWords32 rest
  | _ => []

/-- Pack bytes into 32-bit little-endian words. -/
def leWords32 : List Nat → List Nat
  | a :: b :: c :: d :: rest => (a + 256 * (b + 256 * (c + 256 * d))) :: leWords32 rest
  | _ => []

/-- Big-endian bytes of a 32-bit word. -/
def w32BE (w : Nat) : List Nat :=
  [w / 256 ^ 3 % 256, w / 256 ^ 2 % 256, w / 256 % 256, w % 256]

/-- Big-endian bytes of a 64-bit length field. -/
def u64BE (n : Nat) : List Nat :=
  (u64LE n).reverse

/-- Split a byte stream into 64-byte blocks; the fuel argument (instantiated
with the stream length, an upper bound on the number of blocks) keeps the
recursion structural. -/
def chunks64Aux : Nat → List Nat → List (List Nat)
  | 0, _ => []
  | _, [] => []
  | fuel + 1, b :: s => ((b :: s).take 64) :: chunks64Aux fuel ((b :: s).drop 64)

/-- Split a byte stream into 64-byte blocks. -/
def chunks64 (s : List Nat) : List (List Nat) :=
  chunks64Aux s.length s

/-- SHA-256 round constants. -/
def sha256K : List Nat := [
  1116352408, 1899447441, 3049323471, 3921009573, 961987163, 1508970993, 2453635748, 2870763221,
  3624381080, 310598401, 607225278, 1426881987, 1925078388, 2162078206, 2614888103, 3248222580,
  3835390401, 4022224774, 264347078, 604807628, 770255983, 1249150122, 1555081692, 1996064986,
  2554220882, 2821834349, 2952996808, 3210313671, 3336571891, 3584528711, 113926993, 338241895,
  666307205, 773529912, 1294757372, 1396182291, 1695183700, 1986661051, 2177026350, 2456956037,
  2730485921, 2820302411, 3259730800, 3345764771, 3516065817, 3600352804, 4094571909, 275423344,
  430227734, 506948616, 659060556, 883997877, 958139571, 1322822218, 1537002063, 1747873779,
  1955562222, 2024104815, 2227730452, 2361852424, 2428436474, 2756734187, 3204031479, 3329325298]

/-- SHA-256 initial state. -/
def sha256InitH : List Nat :=
  [1779033703, 3144134277, 1013904242, 2773480762, 1359893119, 2600822924, 528734635, 1541459225]

/-- Extend the 16 message words by `k` further schedule words; `ws` holds the
words generated so far, most recent first. -/
def sha256ExtendAux : List Nat → Nat → List Nat
  | ws, 0 => ws
  | ws, k + 1 =>
    let w2 := ws.getD 1 0
    let w7 := ws.getD 6 0
    let w15 := ws.getD 14 0
    let w16 := ws.getD 15 0
    let s0 := rotr32 w15 7 ^^^ rotr32 w15 18 ^^^ (w15 >>> 3)
    let s1 := rotr32 w2 17 ^^^ rotr32 w2 19 ^^^ (w2 >>> 10)
    sha256ExtendAux (((s1 + w7 + s0 + w16) % m32) :: ws) k

/-- One SHA-256 compression round. -/
def sha256Step (st : List Nat) (wk : Nat × Nat) : List Nat :=
  let a := st.getD 0 0
  let b := st.getD 1 0
  let c := st.getD 2 0
  let d := st.getD 3 0
  let e := st.getD 4 0
  let f := st.getD 5 0
  let g := st.getD 6 0
  let hh := st.getD 7 0
  let s1 := rotr32 e 6 ^^^ rotr32 e 11 ^^^ rotr32 e 25
  let ch := (e &&& f) ^^^ ((e ^^^ 4294967295) &&& g)
  let t1 := (hh + s1 + ch + wk.2 + wk.1) % m32
  let s0 := rotr32 a 2 ^^^ rotr32 a 13 ^^^ rotr32 a 22
  let mj := (a &&& b) ^^^ (a &&& c) ^^^ (b &&& c)
  let t2 := (s0 + mj) % m32
  [(t1 + t2) % m32, a, b, c, (d + t1) % m32, e, f, g]

/-- SHA-256 compression of one 64-byte block. -/
def sha256Compress (st : List Nat) (block : List Nat) : List Nat :=
  let w := (sha256ExtendAux (beWords32 block).reverse 48).reverse
  let fin := (w.zip sha256K).foldl sha256Step st
  List.zipWith (fun x y => (x + y) % m32) st fin

/-- SHA-256 padding: 0x80, zeros, 64-bit big-endian bit length. -/
def sha256Pad (msg : List Nat) : List Nat :=
  msg ++ [128] ++ List.replicate ((64 - (msg.length + 9) % 64) % 64) 0 ++ u64BE (8 * msg.length)

/-- SHA-256 of a byte string. -/
def sha256 (msg : List Nat) : List Nat :=
  concatList w32BE ((chunks64 (sha256Pad msg)).foldl sha256Compress sha256InitH)

/-- Double SHA-256, the digest used by sighashes and transaction
identifiers. -/
def hash256 (msg : List Nat) : List Nat :=
  sha256 (sha256 msg)

/-- RIPEMD-160 message-word order, left line. -/
def ripemdRL : List Nat := [
  0, 1, 2, 3, 4, 5, 6, 7, 8, 9, 10, 11, 12, 13, 14, 15,
  7, 4, 13, 1, 10, 6, 15, 3, 12, 0, 9, 5, 2, 14, 11, 8,
  3, 10, 14, 4, 9, 15, 8, 1, 2, 7, 0, 6, 13, 11, 5, 12,
  1, 9, 11, 10, 0, 8, 12, 4, 13, 3, 7, 15, 14, 5, 6, 2,
  4, 0, 5, 9, 7, 12, 2, 10, 14, 1, 3, 8, 11, 6, 15, 13]

/-- RIPEMD-160 message-word order, right line. -/
def ripemdRR : List Nat := [
  5, 14, 7, 0, 9, 2, 11, 4, 13, 6, 15, 8, 1, 10, 3, 12,
  6, 11, 3, 7, 0, 13, 5, 10, 14, 15, 8, 12, 4, 9, 1, 2,
  15, 5, 1, 3, 7, 14, 6, 9, 11, 8, 12, 2, 10, 0, 4, 13,
  8, 6, 4, 1, 3, 11, 15, 0, 5, 12, 2, 13, 9, 7, 10, 14,
  12, 15, 10, 4, 1, 5, 8, 7, 6, 2, 13, 14, 0, 3, 9, 11]

/-- RIPEMD-160 rotation amounts, left line. -/
def ripemdSL : List Nat := [
  11, 14, 15, 12, 5, 8, 7, 9, 11, 13, 14, 15, 6, 7, 9, 8,
  7, 6, 8, 13, 11, 9, 7, 15, 7, 12, 15, 9, 11, 7, 13, 12,
  11, 13, 6, 7, 14, 9, 13, 15, 14, 8, 13, 6, 5, 12, 7, 5,
  11, 12, 14, 15, 14, 15, 9, 8, 9, 14, 5, 6, 8, 6, 5, 12,
  9, 15, 5, 11, 6, 8, 13, 12, 5, 12, 13, 14, 11, 8, 5, 6]

/-- RIPEMD-160 rotation amounts, right line. -/
def ripemdSR : List Nat := [
  8, 9, 9, 11, 13, 15, 15, 5, 7, 7, 8, 11, 14, 14, 12, 6,
  9, 13, 15, 7, 12, 8, 9, 11, 7, 7, 12, 7, 6, 15, 13, 11,
  9, 7, 15, 11, 8, 6, 6, 14, 12, 13, 5, 14, 13, 13, 7, 5,
  15, 5, 8, 11, 14, 14, 6, 14, 6, 9, 12, 9, 12, 5, 15, 8,
  8, 5, 12, 9, 12, 5, 14, 6, 8, 13, 6, 5, 15, 13, 11, 11]

/-- RIPEMD-160 round constants, left line (indexed by round / 16). -/
def ripemdKL : List Nat := [0, 1518500249, 1859775393, 2400959708, 2840853838]

/-- RIPEMD-160 round constants, right line (indexed by round / 16). -/
def ripemdKR : List Nat := [1352829926, 1548603684, 1836072691, 2053994217, 0]

/-- RIPEMD-160 initial state. -/
def ripemdInitH : List Nat :=
  [1732584193, 4023233417, 2562383102, 271733878, 3285377520]

/-- RIPEMD-160 selection function (round-dependent boolean function). -/
def ripemdF (j x y z : Nat) : Nat :=
  if j < 16 then x ^^^ y ^^^ z
  else if j < 32 then (x &&& y) ||| ((x ^^^ 4294967295) &&& z)
  else if j < 48 then (x ||| (y ^^^ 4294967295)) ^^^ z
  else if j < 64 then (x &&& z) ||| (y &&& (z ^^^ 4294967295))
  else x ^^^ (y ||| (z ^^^ 4294967295))

/-- One RIPEMD-160 line: 80 rounds over the block words `X`, with
round-dependent word order `r`, rotations `s` and constants `k`; the right
line (`flip`) uses the selection functions in reverse order. -/
def ripemdLine (X r s k : List Nat) (flip : Bool) (st : List Nat) : List Nat :=
  (List.range 80).foldl (fun st j =>
    let a := st.getD 0 0
    let b := st.getD 1 0
    let c := st.getD 2 0
    let d := st.getD 3 0
    let e := st.getD 4 0
    let jj := if flip then 79 - j else j
    let t := (rotl32 ((a + ripemdF jj b c d + X.getD (r.getD j 0) 0 + k.getD (j / 16) 0) % m32)
      (s.getD j 0) + e) % m32
    [e, t, b, rotl32 c 10, d]) st

/-- RIPEMD-160 compression of one 64-byte block. -/
def ripemdCompress (h : List Nat) (block : List Nat) : List Nat :=
  let X := leWords32 block
  let L := ripemdLine X ripemdRL ripemdSL ripemdKL false h
  let R := ripemdLine X ripemdRR ripemdSR ripemdKR true h
  [(h.getD 1 0 + L.getD 2 0 + R.getD 3 0) % m32,
   (h.getD 2 0 + L.getD 3 0 + R.getD 4 0) % m32,
   (h.getD 3 0 + L.getD 4 0 + R.getD 0 0) % m32,
   (h.getD 4 0 + L.getD 0 0 + R.getD 1 0) % m32,
   (h.getD 0 0 + L.getD 1 0 + R.getD 2 0) % m32]

/-- RIPEMD-160 padding: 0x80, zeros, 64-bit little-endian bit length. -/
def ripemdPad (msg : List Nat) : List Nat :=
  msg ++ [128] ++ List.replicate ((64 - (msg.length + 9) % 64) % 64) 0 ++ u64LE (8 * msg.length)

/-- RIPEMD-160 of a byte string. -/
def ripemd160 (msg : List Nat) : List Nat :=
  concatList u32LE ((chunks64 (ripemdPad msg)).foldl ripemdCompress ripemdInitH)

/-- hash160: SHA-256 followed by RIPEMD-160, the public-key hash used by both
address templates. -/
def hash160 (msg : List Nat) : List Nat :=
  ripemd160 (sha256 msg)

/-! ## Address codec

Modelled from the spec (§4.1): the engine supports exactly two script
templates, pay-to-pubkey-hash and pay-to-witness-pubkey-hash, both keyed by
a 20-byte hash160 of the public key.  Addresses are modelled structurally
as (template, key hash); the base58/bech32 string rendering is a bijective
presentation layer the spec ties to per-network prefixes and is not needed
by the construction claims. -/

/-- The two supported locking-script templates. -/
inductive ScriptKind
  | p2pkh
  | p2wpkh
deriving DecidableEq, Repr

/-- An address: a script template together with the hash160 of the owning
public key. -/
structure Address where
  kind : ScriptKind
  keyHash : List Nat
deriving DecidableEq, Repr

/-- Modelled from the spec (§4.1): derive the address of a public key under
the requested template (hash160 then template wrapping). -/
def deriveAddress (kind : ScriptKind) (publicKey : List Nat) : Address :=
  ⟨kind, hash160 publicKey⟩

/-- Modelled from the spec (§4.4): the locking script of each template --
`OP_DUP OP_HASH160 push20 h OP_EQUALVERIFY OP_CHECKSIG` for
pay-to-pubkey-hash, `OP_0 push20 h` for pay-to-witness-pubkey-hash. -/
def lockingScript (a : Address) : List Nat :=
  match a.kind with
  | .p2pkh => [118, 169, 20] ++ a.keyHash ++ [136, 172]
  | .p2wpkh => [0, 20] ++ a.keyHash

/-- Modelled from the spec (§4.1): classify a locking script as one of the
two supported templates, failing on anything else. -/
def classifyScript (s : List Nat) : Option Address :=
  if s.length = 25 ∧ s.take 3 = [118, 169, 20] ∧ s.drop 23 = [136, 172] then
    some ⟨.p2pkh, (s.drop 3).take 20⟩
  else if s.length = 22 ∧ s.take 2 = [0, 20] then
    some ⟨.p2wpkh, s.drop 2⟩
  else none

theorem classifyScript_lockingScript (a : Address) (h20 : a.keyHash.length = 20) :
    classifyScript (lockingScript a) = some a := by
  cases a with
  | mk kind kh =>
    cases kind
    · have hlen : ([118, 169, 20] ++ kh ++ [136, 172]).length = 25 := by
        simp [h20]
      have htake : ([118, 169, 20] ++ kh ++ [136, 172]).take 3 = [118, 169, 20] := by
        simp
      have hdrop : ([118, 169, 20] ++ kh ++ [136, 172]).drop 23 = [136, 172] := by
        rw [show ([118, 169, 20] ++ kh ++ [136, 172] : List Nat) =
          (([118, 169, 20] ++ kh) ++ [136, 172]) from by simp]
        apply List.drop_left'
        simp [h20]
      have hmid : (([118, 169, 20] ++ kh ++ [136, 172]).drop 3).take 20 = kh := by
        have : ([118, 169, 20] ++ kh ++ [136, 172]).drop 3 = kh ++ [136, 172] := by
          simp
        rw [this]
        exact List.take_left' h20
      simp [lockingScript, classifyScript, hlen, htake, hdrop, hmid]
      exact ⟨⟨h20, List.drop_left' h20⟩, List.take_left' h20⟩
    · have hlen : ([0, 20] ++ kh).length = 22 := by simp [h20]
      simp [lockingScript, classifyScript, hlen, h20]

/-! ## Sighash calculator

Modelled from the spec (§4.3). -/

/-- Map over a list with the element position. -/
def mapIdxAux {α β : Type} (f : Nat → α → β) : Nat → List α → List β
  | _, [] => []
  | k, a :: as => f k a :: mapIdxAux f (k + 1) as

/-- Map over a list with the element position, starting at zero. -/
def mapIdxList {α β : Type} (f : Nat → α → β) (l : List α) : List β :=
  mapIdxAux f 0 l

/-- Modelled from the spec (§4.3, legacy sighash): blank every input's unlock
script except the target input, which temporarily carries the coin's locking
script; serialize without witness data; append the 4-byte little-endian
`SIGHASH_ALL` suffix; hash twice with SHA-256. -/
def legacySighash (tx : MsgTx) (idx : Nat) (lockScript : List Nat) : List Nat :=
  let blanked : MsgTx :=
    { tx with txIn := mapIdxList (fun k i =>
        { i with scriptSig := if k = idx then lockScript else [], witness := [] }) tx.txIn }
  hash256 (serializeTx blanked false ++ u32LE 1)

/-- The length-prefixed pay-to-pubkey-hash script over the coin's key hash
that the witness sighash commits to. -/
def witnessScriptCode (keyHash : List Nat) : List Nat :=
  [25, 118, 169, 20] ++ keyHash ++ [136, 172]

/-- A default input used only as the out-of-range fallback of `List.getD`. -/
def nullTxIn : TxIn :=
  ⟨⟨[], 0⟩, [], 0, []⟩

/-- Modelled from the spec (§4.3, witness sighash): the BIP143-style
segmented preimage, committing in fixed order to the version, the
double-SHA-256 of all outpoints, of all sequence numbers, the target
outpoint, the coin's equivalent-pubkey-hash script, the spent value (8-byte
little-endian), the target sequence, the double-SHA-256 of all serialized
outputs, the locktime and the sighash type. -/
def witnessPreimage (tx : MsgTx) (idx : Nat) (keyHash : List Nat) (value : Nat) : List Nat :=
  let target := tx.txIn.getD idx nullTxIn
  u32LE tx.version
    ++ hash256 (concatList (fun i => serOutPoint i.prevOut) tx.txIn)
    ++ hash256 (concatList (fun i => u32LE i.sequence) tx.txIn)
    ++ serOutPoint target.prevOut
    ++ witnessScriptCode keyHash
    ++ u64LE value
    ++ u32LE target.sequence
    ++ hash256 (concatList serTxOut tx.txOut)
    ++ u32LE tx.lockTime
    ++ u32LE 1

/-- The witness sighash digest: double SHA-256 of the segmented preimage. -/
def witnessSighash (tx : MsgTx) (idx : Nat) (keyHash : List Nat) (value : Nat) : List Nat :=
  hash256 (witnessPreimage tx idx keyHash value)

/-- Modelled from the spec (§4.3): the engine selects the sighash algorithm
by the input's resolved script template; the signing context carries the
spent value, which only the witness algorithm reads. -/
def signingDigest (kind : ScriptKind) (tx : MsgTx) (idx : Nat) (keyHash : List Nat)
    (value : Nat) : List Nat :=
  match kind with
  | .p2pkh => legacySighash tx idx (lockingScript ⟨.p2pkh, keyHash⟩)
  | .p2wpkh => witnessSighash tx idx keyHash value

/-! ## Size and fee estimator -/

/-- Modelled from the spec (§4.2): `floor = minFeeRatePerByte * size`;
`scaled = feeRatePerByte * size * multiplier`; the result is the maximum of
the two, so the multiplier can never push the fee below the protocol
floor. -/
def computeFee (feeRatePerByte minFeeRatePerByte : ℚ) (size : Nat) (multiplier : ℚ) : ℚ :=
  max (minFeeRatePerByte * size) (feeRatePerByte * size * multiplier)

/-- Modelled from the spec (§4.2, §9): the per-field size constants and the
minimum fee rate are chain-specific tunables that the spec leaves as named
configuration ("not derivable from the excerpted source"); concrete values
below are fixed from the sampled behaviour of the construction tests. -/
structure ChainTunables where
  minFeeRatePerByte : ℚ
  txOverhead : Nat
  legacyInputSize : Nat
  witnessInputSize : Nat
  outputSize : Nat

/-- Modelled from the spec (§4.2): estimated serialized size as fixed
overhead plus a constant per legacy input, per witness input and per
output. -/
def estimateSize (cfg : ChainTunables) (numLegacyInputs numWitnessInputs numOutputs : Nat) :
    Nat :=
  cfg.txOverhead + numLegacyInputs * cfg.legacyInputSize +
    numWitnessInputs * cfg.witnessInputSize + numOutputs * cfg.outputSize

/-- Testnet-style tunables of the witness scenario, fixed from the sampled
behaviour of the construction test: the estimator yields 224 bytes for one
witness input and two outputs, and the minimum-rate floor is 142 base units
at that size (rate 142/224 per byte). -/
def testnetTunables : ChainTunables :=
  { minFeeRatePerByte := 142 / 224
    txOverhead := 10
    legacyInputSize := 148
    witnessInputSize := 152
    outputSize := 31 }

/-- Mainnet-style tunables of the legacy scenario, fixed from the sampled
behaviour of the construction test: the estimator yields 220 bytes for one
legacy input and two outputs, and the minimum-rate floor is 330,000 base
units at that size (rate 1500 per byte). -/
def mainnetTunables : ChainTunables :=
  { minFeeRatePerByte := 1500
    txOverhead := 10
    legacyInputSize := 142
    witnessInputSize := 152
    outputSize := 34 }

/-! ## Construction engine data model -/

/-- The two operation types of the data model (§3). -/
inductive OpType
  | input
  | output
deriving DecidableEq, Repr

/-- An operation (§3): list index, network index (populated by Parse), type,
owning account, signed amount, and for inputs a coin reference. -/
structure Operation where
  index : Nat
  networkIndex : Option Nat
  typ : OpType
  account : Address
  amount : Int
  coinChange : Option OutPoint
deriving DecidableEq, Repr

/-- An operation stripped of its network index, the projection under which
Parse must reproduce the caller's operations (§4.5). -/
def opCore (o : Operation) : Operation :=
  { o with networkIndex := none }

/-- Modelled from the spec (§3, §4.4): the unsigned/signed transaction
envelope wraps the raw transaction bytes with the per-input spent amounts;
the sampled unsigned envelope additionally carries the resolved coin
scripts and the input owners, which Parse uses for unsigned transactions.
The spec mandates no concrete wire encoding for the envelope itself, so it
is modelled structurally. -/
structure Envelope where
  txBytes : List Nat
  inputAmounts : List Int
  inputAddresses : List Address
  scriptMetas : List Address
deriving DecidableEq, Repr

/-- A signing payload (§3): owning account plus sighash digest. -/
structure SigningPayload where
  account : Address
  digest : List Nat
deriving DecidableEq, Repr

/-- A signature answering a signing payload (§3): raw signature bytes plus
the public key that produced them. -/
structure SignaturePair where
  sig : List Nat
  pubKey : List Nat
deriving DecidableEq, Repr

/-- The `INPUT` operations of a list, in order. -/
def inputOps (ops : List Operation) : List Operation :=
  ops.filter (fun o => o.typ == OpType.input)

/-- The `OUTPUT` operations of a list, in order. -/
def outputOps (ops : List Operation) : List Operation :=
  ops.filter (fun o => o.typ == OpType.output)

/-- Keep the first occurrence of every element, dropping later duplicates --
the deduplication Parse applies to the signer list. -/
def dedupKeepFirst {α : Type} [DecidableEq α] : List α → List α
  | [] => []
  | a :: as => a :: (dedupKeepFirst as).filter (fun x => decide (x ≠ a))

/-- Sequence a list of fallible computations, failing if any element
fails. -/
def mapMOption {α β : Type} (f : α → Option β) : List α → Option (List β)
  | [] => some []
  | a :: as => do
    let b ← f a
    let bs ← mapMOption f as
    some (b :: bs)

/-! ## Phases -/

/-- The transaction input Payloads builds from one `INPUT` operation:
referenced outpoint, empty unlock script, maximal sequence. -/
def payloadTxIn (o : Operation) : Option TxIn :=
  o.coinChange.map (fun c => ⟨c, [], 4294967295, []⟩)

/-- Total version of `payloadTxIn` (the fallback is never reached for
operations carrying a coin reference). -/
def payloadTxInD (o : Operation) : TxIn :=
  ⟨o.coinChange.getD ⟨[], 0⟩, [], 4294967295, []⟩

/-- The transaction output Payloads builds from one `OUTPUT` operation. -/
def payloadTxOut (o : Operation) : TxOut :=
  ⟨o.amount.toNat, lockingScript o.account⟩

/-- Modelled from the spec (§4.5 Payloads): build the unsigned transaction
(inputs from `INPUT` operations in order, outputs from `OUTPUT` operations
in order, locking scripts derived from the accounts), wrap it in the
envelope with the per-input amounts, owners and resolved scripts, and
produce one signing payload per input using the input's resolved script
template. -/
def payloadsPhase (ops : List Operation) (metas : List Address) :
    Option (Envelope × List SigningPayload) := do
  let ins := inputOps ops
  let outs := outputOps ops
  let txIns ← mapMOption payloadTxIn ins
  if metas.length = txIns.length then
    let tx : MsgTx := ⟨1, txIns, outs.map payloadTxOut, 0⟩
    let env : Envelope :=
      ⟨serializeTx tx true, ins.map (fun o => o.amount), ins.map (fun o => o.account), metas⟩
    let pls := mapIdxList (fun k x =>
      (⟨x.1.account, signingDigest x.2.kind tx k x.2.keyHash x.1.amount.natAbs⟩ :
        SigningPayload)) (ins.zip metas)
    some (env, pls)
  else none

/-- Read one script push (direct push opcode, data up to 75 bytes). -/
def parsePush : List Nat → Option (List Nat × List Nat)
  | [] => none
  | b :: rest => if b ≤ 75 then readBytes b rest else none

/-- Modelled from the spec (§4.5 Parse): recover a signed input's owning
address from its unlock data -- the hash160 of the witness public key for a
two-item witness stack, or of the scriptSig's second push for a legacy
input. -/
def recoverInputAddress (i : TxIn) : Option Address :=
  match i.witness with
  | [] => do
    let (_, r1) ← parsePush i.scriptSig
    let (pk, r2) ← parsePush r1
    if r2 = [] then some ⟨.p2pkh, hash160 pk⟩ else none
  | [_, pk] => some ⟨.p2wpkh, hash160 pk⟩
  | _ => none

/-- Reconstruct the `OUTPUT` operations of a parsed transaction: operation
index continues after the inputs, network index is the output position, the
account is decoded from the locking script. -/
def parseOutputs (nIn : Nat) : Nat → List TxOut → Option (List Operation)
  | _, [] => some []
  | j, o :: os => do
    let a ← classifyScript o.pkScript
    let rest ← parseOutputs nIn (j + 1) os
    some (⟨nIn + j, some j, .output, a, (o.value : Int), none⟩ :: rest)

/-- Modelled from the spec (§4.5 Parse): decode the envelope, rebuild one
`INPUT` operation per input (owner from the unlock data when signed, from
the envelope's recorded owners when unsigned; amount from the envelope) and
one `OUTPUT` operation per output, and for signed transactions the
deduplicated signer list. -/
def parsePhase (env : Envelope) (signed : Bool) : Option (List Operation × List Address) := do
  let tx ← deserializeTx env.txBytes
  let nIn := tx.txIn.length
  if env.inputAmounts.length = nIn ∧ env.inputAddresses.length = nIn then
    let addrs ← if signed then mapMOption recoverInputAddress tx.txIn else some env.inputAddresses
    let inOps := mapIdxList (fun k x =>
      (⟨k, some k, .input, x.2, x.1.2, some x.1.1.prevOut⟩ : Operation))
      ((tx.txIn.zip env.inputAmounts).zip addrs)
    let outOps ← parseOutputs nIn 0 tx.txOut
    some (inOps ++ outOps, if signed then dedupKeepFirst addrs else [])
  else none

/-- The sighash-type byte appended to every signature (SIGHASH_ALL). -/
def sighashAllByte : Nat := 1

/-- A direct script push of up to 75 bytes. -/
def pushData (bs : List Nat) : List Nat :=
  bs.length :: bs

/-- Modelled from the spec (§4.5 Combine): per-input unlock data -- legacy
inputs get a scriptSig pushing `(signature ++ sighashType)` then the public
key; witness inputs get an empty scriptSig and the two-item witness stack
`[signature ++ sighashType, publicKey]`. -/
def applyUnlock (m : Address) (s : SignaturePair) (i : TxIn) : TxIn :=
  match m.kind with
  | .p2pkh =>
    { i with scriptSig := pushData (s.sig ++ [sighashAllByte]) ++ pushData s.pubKey,
             witness := [] }
  | .p2wpkh =>
    { i with scriptSig := [], witness := [s.sig ++ [sighashAllByte], s.pubKey] }

/-- Modelled from the spec (§4.5 Combine): attach the unlock data of each
signature to the corresponding input (failing unless signatures and inputs
correspond one-to-one) and reserialize; the result is witness-formatted
exactly when some input is a witness input. -/
def combinePhase (env : Envelope) (sigs : List SignaturePair) : Option Envelope := do
  let tx ← deserializeTx env.txBytes
  if sigs.length = tx.txIn.length ∧ env.scriptMetas.length = tx.txIn.length then
    let newIns := (tx.txIn.zip (env.scriptMetas.zip sigs)).map
      (fun x => applyUnlock x.2.1 x.2.2 x.1)
    let tx2 : MsgTx := { tx with txIn := newIns }
    some { env with txBytes := serializeTx tx2 true }
  else none

/-- Modelled from the spec (§4.5 Hash): the canonical transaction identifier
is the byte-reversed double SHA-256 of the transaction serialized without
its witness segment. -/
def hashPhase (bytes : List Nat) : Option (List Nat) :=
  (deserializeTx bytes).map (fun tx => (hash256 (serializeTx tx false)).reverse)

/-- First two bytes after the version are the witness marker/flag pair. -/
def isWitnessFormatted (bytes : List Nat) : Bool :=
  decide (((bytes.drop 4).take 2) = [0, 1])

/-! ## Preprocess and Metadata -/

/-- Intermediate state between Preprocess and Metadata (§3): selected coins,
their amounts, the estimated byte size and the caller's fee multiplier. -/
structure PreprocessOptions where
  coins : List OutPoint
  coinAmounts : List Int
  estimatedSize : Nat
  feeMultiplier : ℚ
deriving DecidableEq, Repr

/-- Modelled from the spec (§4.5 Preprocess): collect the consumed coins from
the `INPUT` operations (failing if one lacks a coin reference), count inputs
by the caller's account template, and estimate the size. -/
def preprocessPhase (cfg : ChainTunables) (ops : List Operation) (mult : ℚ) :
    Option PreprocessOptions := do
  let ins := inputOps ops
  let outs := outputOps ops
  let coins ← mapMOption (fun o => o.coinChange) ins
  let nLeg := (ins.filter (fun o => o.account.kind == ScriptKind.p2pkh)).length
  let nWit := (ins.filter (fun o => o.account.kind == ScriptKind.p2wpkh)).length
  some ⟨coins, ins.map (fun o => o.amount), estimateSize cfg nLeg nWit outs.length, mult⟩

/-- The external node client and indexer responses Metadata consumes (§6). -/
structure NodeClient where
  bestBlockHeight : Int
  hashAtHeight : Int → List Nat
  suggestedFeeRatePerByte : ℚ
  resolvedScripts : List Address

/-- The fixed replay-protection depth below the best block at which Metadata
requests a block hash; 100 blocks in the sampled behaviour (§9). -/
def replayProtectionDepth : Int := 100

/-- The metadata returned by the Metadata phase (§3): the replay-protection
block reference, the resolved coin scripts standing in for script metadata,
and the suggested fee. -/
structure ConstructionMetadata where
  requestedHashHeight : Int
  replayBlockHash : List Nat
  scriptPubKeys : List Address
  suggestedFee : Int

/-- Modelled from the spec (§4.5 Metadata): resolve the coin scripts through
the indexer, query the node for the best height, request the block hash at
the fixed replay-protection depth below it, query the suggested fee rate,
and compute the final fee from the estimated size, the multiplier and the
protocol floor (§4.2). -/
def metadataPhase (cfg : ChainTunables) (client : NodeClient)
    (opts : PreprocessOptions) : ConstructionMetadata :=
  let h := client.bestBlockHeight - replayProtectionDepth
  { requestedHashHeight := h
    replayBlockHash := client.hashAtHeight h
    scriptPubKeys := client.resolvedScripts
    suggestedFee := Int.floor (computeFee client.suggestedFeeRatePerByte
      cfg.minFeeRatePerByte opts.estimatedSize opts.feeMultiplier) }

/-! ## Round-trip supporting lemmas -/

theorem mapMOption_some {α β : Type} (f : α → Option β) (g : α → β) (l : List α)
    (h : ∀ a ∈ l, f a = some (g a)) : mapMOption f l = some (l.map g) := by
  induction l with
  | nil => rfl
  | cons a as ih =>
    have ha := h a (by simp)
    have ih2 := ih (fun x hx => h x (by simp [hx]))
    simp [mapMOption, ha, ih2]

theorem mapIdxAux_cons {α β : Type} (f : Nat → α → β) (k : Nat) (a : α) (l : List α) :
    mapIdxAux f k (a :: l) = f k a :: mapIdxAux f (k + 1) l := rfl

theorem map_mapIdxAux {α β γ : Type} (f : Nat → α → β) (g : β → γ) (l : List α) (k : Nat) :
    (mapIdxAux f k l).map g = mapIdxAux (fun n a => g (f n a)) k l := by
  induction l generalizing k with
  | nil => rfl
  | cons a as ih => simp [mapIdxAux, ih]

theorem inputOps_append (insOps outOps : List Operation)
    (hin : ∀ o ∈ insOps, o.typ = OpType.input) (hout : ∀ o ∈ outOps, o.typ = OpType.output) :
    inputOps (insOps ++ outOps) = insOps := by
  unfold inputOps
  rw [List.filter_append]
  have h1 : insOps.filter (fun o => o.typ == OpType.input) = insOps :=
    List.filter_eq_self.mpr (fun o ho => by simp [hin o ho])
  have h2 : outOps.filter (fun o => o.typ == OpType.input) = [] :=
    List.filter_eq_nil_iff.mpr (fun o ho => by simp [hout o ho])
  simp [h1, h2]

theorem outputOps_append (insOps outOps : List Operation)
    (hin : ∀ o ∈ insOps, o.typ = OpType.input) (hout : ∀ o ∈ outOps, o.typ = OpType.output) :
    outputOps (insOps ++ outOps) = outOps := by
  unfold outputOps
  rw [List.filter_append]
  have h1 : insOps.filter (fun o => o.typ == OpType.output) = [] :=
    List.filter_eq_nil_iff.mpr (fun o ho => by simp [hin o ho])
  have h2 : outOps.filter (fun o => o.typ == OpType.output) = outOps :=
    List.filter_eq_self.mpr (fun o ho => by simp [hout o ho])
  simp [h1, h2]

/-- The unsigned transaction Payloads builds for a canonical operation
list. -/
def payloadTx (insOps outOps : List Operation) : MsgTx :=
  ⟨1, insOps.map payloadTxInD, outOps.map payloadTxOut, 0⟩

/-- The inputs after Combine attaches the unlock data. -/
def combinedIns (insOps : List Operation) (sigs : List SignaturePair) : List TxIn :=
  ((insOps.map payloadTxInD).zip ((insOps.map (fun o => o.account)).zip sigs)).map
    (fun x => applyUnlock x.2.1 x.2.2 x.1)

/-- The signed transaction Combine builds for a canonical operation list. -/
def combinedTx (insOps outOps : List Operation) (sigs : List SignaturePair) : MsgTx :=
  ⟨1, combinedIns insOps sigs, outOps.map payloadTxOut, 0⟩

/-- A signature matches its input operation: its public key hashes to the
owning account's key hash, and the pushed data fits in direct pushes. -/
def SigOk (o : Operation) (s : SignaturePair) : Prop :=
  hash160 s.pubKey = o.account.keyHash ∧ s.sig.length + 1 ≤ 75 ∧ s.pubKey.length ≤ 75

/-- Wellformedness of an `INPUT` operation. -/
def InOpOk (o : Operation) : Prop :=
  o.typ = OpType.input ∧
    ∃ c, o.coinChange = some c ∧ c.txid.length = 32 ∧ c.vout < 2 ^ 32

/-- Wellformedness of an `OUTPUT` operation. -/
def OutOpOk (o : Operation) : Prop :=
  o.typ = OpType.output ∧ o.coinChange = none ∧ 0 ≤ o.amount ∧ o.amount < 2 ^ 64 ∧
    o.account.keyHash.length = 20

theorem applyUnlock_prevOut (m : Address) (s : SignaturePair) (i : TxIn) :
    (applyUnlock m s i).prevOut = i.prevOut := by
  cases m with
  | mk kind kh => cases kind <;> rfl

theorem applyUnlock_sequence (m : Address) (s : SignaturePair) (i : TxIn) :
    (applyUnlock m s i).sequence = i.sequence := by
  cases m with
  | mk kind kh => cases kind <;> rfl

theorem recover_applyUnlock (m : Address) (s : SignaturePair) (i : TxIn)
    (hh : hash160 s.pubKey = m.keyHash) (hs : s.sig.length + 1 ≤ 75)
    (hp : s.pubKey.length ≤ 75) :
    recoverInputAddress (applyUnlock m s i) = some m := by
  cases m with
  | mk kind kh =>
    cases kind
    · have hlen1 : (s.sig ++ [sighashAllByte]).length ≤ 75 := by
        simpa using hs
      have hpush1 : parsePush (pushData (s.sig ++ [sighashAllByte]) ++ pushData s.pubKey) =
          some (s.sig ++ [sighashAllByte], pushData s.pubKey) := by
        show parsePush ((s.sig ++ [sighashAllByte]).length ::
          ((s.sig ++ [sighashAllByte]) ++ pushData s.pubKey)) = _
        simp only [parsePush]
        rw [if_pos hlen1]
        exact readBytes_append _ _
      have hpush2 : parsePush (pushData s.pubKey) = some (s.pubKey, []) := by
        have hrb := readBytes_append s.pubKey []
        rw [List.append_nil] at hrb
        show parsePush (s.pubKey.length :: s.pubKey) = _
        simp only [parsePush]
        rw [if_pos hp]
        exact hrb
      simp [applyUnlock, recoverInputAddress, hpush1, hpush2, hh]
    · simp [applyUnlock, recoverInputAddress, hh]

theorem forall₂_map_self {α β : Type} (f : α → β) (P : α → β → Prop) (l : List α)
    (h : ∀ a ∈ l, P a (f a)) : List.Forall₂ P l (l.map f) := by
  induction l with
  | nil => exact .nil
  | cons a as ih => exact .cons (h a (by simp)) (ih fun x hx => h x (by simp [hx]))

theorem recover_combinedIns (insOps : List Operation) (sigs : List SignaturePair)
    (h : List.Forall₂ SigOk insOps sigs) :
    mapMOption recoverInputAddress (combinedIns insOps sigs) =
      some (insOps.map (fun o => o.account)) := by
  induction h with
  | nil => rfl
  | @cons o s ops ss ho hrest ih =>
    have hr := recover_applyUnlock o.account s (payloadTxInD o) ho.1 ho.2.1 ho.2.2
    simp only [combinedIns, List.map_cons, List.zip_cons_cons] at ih ⊢
    simp [mapMOption, hr, ih]

theorem combinedIns_prevOut (insOps : List Operation) (sigs : List SignaturePair)
    (h : List.Forall₂ SigOk insOps sigs) :
    List.Forall₂ (fun o i => i.prevOut = o.coinChange.getD ⟨[], 0⟩)
      insOps (combinedIns insOps sigs) := by
  induction h with
  | nil => exact .nil
  | @cons o s ops ss ho hrest ih =>
    simp only [combinedIns, List.map_cons, List.zip_cons_cons] at ih ⊢
    exact .cons (by rw [applyUnlock_prevOut]; rfl) ih

theorem combinedIns_length (insOps : List Operation) (sigs : List SignaturePair)
    (h : List.Forall₂ SigOk insOps sigs) :
    (combinedIns insOps sigs).length = insOps.length := by
  simp [combinedIns, List.length_zip, h.length_eq]

theorem wf_combinedIns (insOps : List Operation) (sigs : List SignaturePair)
    (h : List.Forall₂ SigOk insOps sigs) (hin : ∀ o ∈ insOps, InOpOk o) :
    ∀ i ∈ combinedIns insOps sigs, WfTxIn i := by
  induction h with
  | nil => simp [combinedIns]
  | @cons o s ops ss ho hrest ih =>
    simp only [combinedIns, List.map_cons, List.zip_cons_cons, List.mem_cons] at ih ⊢
    intro i hi
    rcases hi with hi | hi
    · subst hi
      obtain ⟨-, c, hc, h32, hv⟩ := hin o (by simp)
      obtain ⟨hhash, hs75, hp75⟩ := ho
      cases hk : o.account.kind <;>
        refine ⟨?_, ?_, ?_, ?_, ?_, ?_⟩ <;>
          simp [applyUnlock, hk, payloadTxInD, hc, h32, hv, pushData, sighashAllByte] <;>
          omega
    · exact ih (fun x hx => hin x (by simp [hx])) i hi

theorem wf_payloadTxIn (o : Operation) (ho : InOpOk o) : WfTxIn (payloadTxInD o) := by
  obtain ⟨-, c, hc, h32, hv⟩ := ho
  refine ⟨?_, ?_, ?_, ?_, ?_, ?_⟩ <;> simp [payloadTxInD, hc, h32, hv] <;> omega

theorem wf_payloadTxOut (o : Operation) (ho : OutOpOk o) :
    (payloadTxOut o).value < 2 ^ 64 ∧ (payloadTxOut o).pkScript.length < 2 ^ 64 := by
  obtain ⟨-, -, hnn, hlt, h20⟩ := ho
  constructor
  · simp only [payloadTxOut]
    omega
  · simp only [payloadTxOut]
    cases hk : o.account.kind <;> simp [lockingScript, hk, h20]

theorem wf_payloadTx (insOps outOps : List Operation)
    (hne : insOps ≠ []) (hnin : insOps.length < 2 ^ 64) (hnout : outOps.length < 2 ^ 64)
    (hin : ∀ o ∈ insOps, InOpOk o) (hout : ∀ o ∈ outOps, OutOpOk o) :
    WfTx (payloadTx insOps outOps) := by
  refine ⟨by simp [payloadTx], by simp [payloadTx], ?_, ?_, ?_, ?_, ?_⟩
  · simp [payloadTx, hne]
  · simpa [payloadTx] using hnin
  · simpa [payloadTx] using hnout
  · intro i hi
    simp only [payloadTx, List.mem_map] at hi
    obtain ⟨o, ho, rfl⟩ := hi
    exact wf_payloadTxIn o (hin o ho)
  · intro t ht
    simp only [payloadTx, List.mem_map] at ht
    obtain ⟨o, ho, rfl⟩ := ht
    exact wf_payloadTxOut o (hout o ho)

theorem wf_combinedTx (insOps outOps : List Operation) (sigs : List SignaturePair)
    (hne : insOps ≠ []) (hnin : insOps.length < 2 ^ 64) (hnout : outOps.length < 2 ^ 64)
    (hin : ∀ o ∈ insOps, InOpOk o) (hout : ∀ o ∈ outOps, OutOpOk o)
    (hsig : List.Forall₂ SigOk insOps sigs) :
    WfTx (combinedTx insOps outOps sigs) := by
  refine ⟨by simp [combinedTx], by simp [combinedTx], ?_, ?_, ?_, ?_, ?_⟩
  · have hlen := combinedIns_length insOps sigs hsig
    simp only [combinedTx]
    intro hcon
    rw [hcon] at hlen
    simp at hlen
    exact hne (List.length_eq_zero.mp hlen.symm)
  · simpa [combinedTx, combinedIns_length insOps sigs hsig] using hnin
  · simpa [combinedTx] using hnout
  · exact fun i hi => wf_combinedIns insOps sigs hsig hin i hi
  · intro t ht
    simp only [combinedTx, List.mem_map] at ht
    obtain ⟨o, ho, rfl⟩ := ht
    exact wf_payloadTxOut o (hout o ho)

theorem parse_inputs_core (insOps : List Operation) (ins2 : List TxIn) (k : Nat)
    (h2 : List.Forall₂ (fun o i => i.prevOut = o.coinChange.getD ⟨[], 0⟩) insOps ins2)
    (hidx : insOps.map (fun o => o.index) = List.range' k insOps.length)
    (hok : ∀ o ∈ insOps, InOpOk o) :
    (mapIdxAux (fun n x =>
      (⟨n, some n, OpType.input, x.2, x.1.2, some x.1.1.prevOut⟩ : Operation)) k
      ((ins2.zip (insOps.map (fun o => o.amount))).zip
        (insOps.map (fun o => o.account)))).map opCore = insOps.map opCore := by
  induction h2 generalizing k with
  | nil => rfl
  | @cons o i ops ins ho hrest ih =>
    obtain ⟨hty, c, hc, -, -⟩ := hok o (by simp)
    simp only [List.map_cons, List.length_cons, List.range'_succ, List.cons.injEq] at hidx
    obtain ⟨hidx0, hidxrest⟩ := hidx
    simp only [List.map_cons, List.zip_cons_cons, mapIdxAux_cons]
    rw [List.cons.injEq]
    constructor
    · simp [opCore, ho, hc, hidx0, hty]
    · exact ih (k + 1) hidxrest (fun x hx => hok x (by simp [hx]))

theorem parseOutputs_map (nIn : Nat) (outOps : List Operation) (j : Nat)
    (hout : ∀ o ∈ outOps, OutOpOk o) :
    parseOutputs nIn j (outOps.map payloadTxOut) =
      some (mapIdxAux (fun n o =>
        (⟨nIn + n, some n, OpType.output, o.account, o.amount, none⟩ : Operation)) j outOps) := by
  induction outOps generalizing j with
  | nil => rfl
  | cons o os ih =>
    obtain ⟨-, -, hnn, hlt, h20⟩ := hout o (by simp)
    have hcls := classifyScript_lockingScript o.account h20
    have hih := ih (j + 1) (fun x hx => hout x (by simp [hx]))
    simp [parseOutputs, payloadTxOut, hcls, mapIdxAux_cons, hih, Int.toNat_of_nonneg hnn]

theorem parseOutputs_opCore (nIn : Nat) (outOps : List Operation) (j : Nat)
    (hidx : outOps.map (fun o => o.index) = List.range' (nIn + j) outOps.length)
    (hout : ∀ o ∈ outOps, OutOpOk o) :
    (mapIdxAux (fun n o =>
      (⟨nIn + n, some n, OpType.output, o.account, o.amount, none⟩ : Operation)) j
        outOps).map opCore = outOps.map opCore := by
  induction outOps generalizing j with
  | nil => rfl
  | cons o os ih =>
    obtain ⟨hty, hcn, -, -, -⟩ := hout o (by simp)
    simp only [List.map_cons, List.length_cons, List.range'_succ, List.cons.injEq] at hidx
    obtain ⟨hidx0, hidxrest⟩ := hidx
    simp only [mapIdxAux_cons, List.map_cons]
    rw [List.cons.injEq]
    constructor
    · simp [opCore, hidx0, hty, hcn]
    · have : nIn + j + 1 = nIn + (j + 1) := by omega
      rw [this] at hidxrest
      exact ih (j + 1) hidxrest (fun x hx => hout x (by simp [hx]))

/-- The envelope Payloads produces for a canonical operation list. -/
def payloadEnv (insOps outOps : List Operation) (metas : List Address) : Envelope :=
  ⟨serializeTx (payloadTx insOps outOps) true, insOps.map (fun o => o.amount),
   insOps.map (fun o => o.account), metas⟩

set_option maxHeartbeats 1600000 in
/-- C9: unsigned round-trip -- for every operation set Payloads accepts
(canonically indexed inputs then outputs, with well-formed coins, amounts
and key hashes, and one script meta per input), parsing the unsigned
envelope with `signed = false` returns operations whose cores (type,
account, amount, coin, index ordering) equal the original operations, and
an empty signer list. -/
theorem unsigned_round_trip
    (insOps outOps : List Operation) (metas : List Address)
    (hne : insOps ≠ []) (hnin : insOps.length < 2 ^ 64) (hnout : outOps.length < 2 ^ 64)
    (hidxIn : insOps.map (fun o => o.index) = List.range' 0 insOps.length)
    (hidxOut : outOps.map (fun o => o.index) = List.range' insOps.length outOps.length)
    (hin : ∀ o ∈ insOps, InOpOk o) (hout : ∀ o ∈ outOps, OutOpOk o)
    (hm : metas.length = insOps.length) :
    ∃ pls res,
      payloadsPhase (insOps ++ outOps) metas = some (payloadEnv insOps outOps metas, pls) ∧
      parsePhase (payloadEnv insOps outOps metas) false = some (res, []) ∧
      res.map opCore = (insOps ++ outOps).map opCore := by
  have hio := inputOps_append insOps outOps (fun o ho => (hin o ho).1)
    (fun o ho => (hout o ho).1)
  have hoo := outputOps_append insOps outOps (fun o ho => (hin o ho).1)
    (fun o ho => (hout o ho).1)
  have hmapM : mapMOption payloadTxIn insOps = some (insOps.map payloadTxInD) := by
    apply mapMOption_some
    intro o ho
    obtain ⟨-, c, hc, -, -⟩ := hin o ho
    simp [payloadTxIn, payloadTxInD, hc]
  have hwf := wf_payloadTx insOps outOps hne hnin hnout hin hout
  have hdes := deserializeTx_serializeTx _ hwf
  have hPO := parseOutputs_map insOps.length outOps 0 hout
  have hlen2 : metas.length = (insOps.map payloadTxInD).length := by simp [hm]
  have hpay : ∃ pls, payloadsPhase (insOps ++ outOps) metas =
      some (payloadEnv insOps outOps metas, pls) := by
    unfold payloadsPhase
    rw [hio, hoo]
    simp only [Option.bind_eq_bind, hmapM, Option.some_bind, hlen2, reduceIte]
    exact ⟨_, rfl⟩
  obtain ⟨pls, hpay⟩ := hpay
  have hval : parsePhase (payloadEnv insOps outOps metas) false =
      some ((mapIdxAux (fun n x =>
          (⟨n, some n, OpType.input, x.2, x.1.2, some x.1.1.prevOut⟩ : Operation)) 0
          (((insOps.map payloadTxInD).zip (insOps.map (fun o => o.amount))).zip
            (insOps.map (fun o => o.account)))) ++
        (mapIdxAux (fun n o =>
          (⟨insOps.length + n, some n, OpType.output, o.account, o.amount, none⟩ : Operation)) 0
          outOps), []) := by
    unfold parsePhase
    show (deserializeTx (serializeTx (payloadTx insOps outOps) true)).bind _ = _
    rw [hdes]
    simp only [Option.bind_eq_bind, Option.some_bind]
    rw [if_pos (by simp [payloadTx, payloadEnv])]
    simp only [payloadEnv, payloadTx, Bool.false_eq_true, if_neg, Option.some_bind,
      List.length_map, reduceIte, not_false_eq_true]
    rw [hPO]
    simp [mapIdxList]
  refine ⟨pls, _, hpay, hval, ?_⟩
  rw [List.map_append, List.map_append]
  have hA := parse_inputs_core insOps (insOps.map payloadTxInD) 0
    (forall₂_map_self _ _ _ (fun o ho => rfl)) hidxIn hin
  have hB := parseOutputs_opCore insOps.length outOps 0 (by simpa using hidxOut) hout
  rw [hA, hB]

/-- The envelope Combine produces for a canonical operation list. -/
def combinedEnv (insOps outOps : List Operation) (metas : List Address)
    (sigs : List SignaturePair) : Envelope :=
  ⟨serializeTx (combinedTx insOps outOps sigs) true, insOps.map (fun o => o.amount),
   insOps.map (fun o => o.account), metas⟩

set_option maxHeartbeats 1600000 in
/-- C1: signed round-trip -- for every operation set Payloads accepts and
every matching signature list, Combine succeeds on the unsigned envelope
and parsing the combined envelope with `signed = true` returns operations
whose cores equal the original operations, with the signer list equal to
the deduplicated accounts owning the consumed coins. -/
theorem signed_round_trip
    (insOps outOps : List Operation) (metas : List Address) (sigs : List SignaturePair)
    (hne : insOps ≠ []) (hnin : insOps.length < 2 ^ 64) (hnout : outOps.length < 2 ^ 64)
    (hidxIn : insOps.map (fun o => o.index) = List.range' 0 insOps.length)
    (hidxOut : outOps.map (fun o => o.index) = List.range' insOps.length outOps.length)
    (hin : ∀ o ∈ insOps, InOpOk o) (hout : ∀ o ∈ outOps, OutOpOk o)
    (hmetas : metas = insOps.map (fun o => o.account))
    (hsig : List.Forall₂ SigOk insOps sigs) :
    ∃ pls res,
      payloadsPhase (insOps ++ outOps) metas = some (payloadEnv insOps outOps metas, pls) ∧
      combinePhase (payloadEnv insOps outOps metas) sigs =
        some (combinedEnv insOps outOps metas sigs) ∧
      parsePhase (combinedEnv insOps outOps metas sigs) true =
        some (res, dedupKeepFirst (insOps.map (fun o => o.account))) ∧
      res.map opCore = (insOps ++ outOps).map opCore := by
  have hm : metas.length = insOps.length := by simp [hmetas]
  have hio := inputOps_append insOps outOps (fun o ho => (hin o ho).1)
    (fun o ho => (hout o ho).1)
  have hoo := outputOps_append insOps outOps (fun o ho => (hin o ho).1)
    (fun o ho => (hout o ho).1)
  have hmapM : mapMOption payloadTxIn insOps = some (insOps.map payloadTxInD) := by
    apply mapMOption_some
    intro o ho
    obtain ⟨-, c, hc, -, -⟩ := hin o ho
    simp [payloadTxIn, payloadTxInD, hc]
  have hwf := wf_payloadTx insOps outOps hne hnin hnout hin hout
  have hdes := deserializeTx_serializeTx _ hwf
  have hwf2 := wf_combinedTx insOps outOps sigs hne hnin hnout hin hout hsig
  have hdes2 := deserializeTx_serializeTx _ hwf2
  have hlenCI := combinedIns_length insOps sigs hsig
  have hrec := recover_combinedIns insOps sigs hsig
  have hPO := parseOutputs_map insOps.length outOps 0 hout
  have hlen2 : metas.length = (insOps.map payloadTxInD).length := by simp [hm]
  have hpay : ∃ pls, payloadsPhase (insOps ++ outOps) metas =
      some (payloadEnv insOps outOps metas, pls) := by
    unfold payloadsPhase
    rw [hio, hoo]
    simp only [Option.bind_eq_bind, hmapM, Option.some_bind, hlen2, reduceIte]
    exact ⟨_, rfl⟩
  obtain ⟨pls, hpay⟩ := hpay
  have hcomb : combinePhase (payloadEnv insOps outOps metas) sigs =
      some (combinedEnv insOps outOps metas sigs) := by
    unfold combinePhase
    show (deserializeTx (serializeTx (payloadTx insOps outOps) true)).bind _ = _
    rw [hdes]
    simp only [Option.bind_eq_bind, Option.some_bind]
    rw [if_pos (by constructor <;> simp [payloadTx, payloadEnv, hsig.length_eq, hm])]
    subst hmetas
    rfl
  have hval : parsePhase (combinedEnv insOps outOps metas sigs) true =
      some ((mapIdxAux (fun n x =>
          (⟨n, some n, OpType.input, x.2, x.1.2, some x.1.1.prevOut⟩ : Operation)) 0
          (((combinedIns insOps sigs).zip (insOps.map (fun o => o.amount))).zip
            (insOps.map (fun o => o.account)))) ++
        (mapIdxAux (fun n o =>
          (⟨insOps.length + n, some n, OpType.output, o.account, o.amount, none⟩ : Operation)) 0
          outOps), dedupKeepFirst (insOps.map (fun o => o.account))) := by
    unfold parsePhase
    show (deserializeTx (serializeTx (combinedTx insOps outOps sigs) true)).bind _ = _
    rw [hdes2]
    simp only [Option.bind_eq_bind, Option.some_bind]
    rw [if_pos (by constructor <;> simp [combinedTx, combinedEnv, hlenCI])]
    simp only [combinedTx, combinedEnv, reduceIte, hrec, Option.some_bind, hlenCI]
    rw [hPO]
    simp [mapIdxList]
  refine ⟨pls, _, hpay, hcomb, hval, ?_⟩
  rw [List.map_append, List.map_append]
  have hA := parse_inputs_core insOps (combinedIns insOps sigs) 0
    (combinedIns_prevOut insOps sigs hsig) hidxIn hin
  have hB := parseOutputs_opCore insOps.length outOps 0 (by simpa using hidxOut) hout
  rw [hA, hB]

/-! ## Further supporting definitions and lemmas -/

/-- A transaction with its witness stacks removed. -/
def stripWitness (tx : MsgTx) : MsgTx :=
  { tx with txIn := tx.txIn.map stripIn }

theorem concatList_map {α β : Type} (f : β → List Nat) (g : α → β) (l : List α) :
    concatList f (l.map g) = concatList (fun a => f (g a)) l := by
  induction l <;> simp [concatList, *]

/-- The witness-free serialization ignores the witness stacks entirely. -/
theorem serializeTx_false_strip (tx : MsgTx) :
    serializeTx tx false = serializeTx (stripWitness tx) false := by
  simp [serializeTx, stripWitness, concatList_map]
  rfl

/-- Arithmetic fact used by the fee-floor witness. -/
theorem rateTimesMultiplierBelowFloor : (3 : ℚ) * 2 < 1500 := by norm_num

theorem isWitnessFormatted_serializeTx (tx : MsgTx) (hne : tx.txIn ≠ []) :
    isWitnessFormatted (serializeTx tx true) = hasWitness tx := by
  by_cases hw : hasWitness tx
  · rw [serializeTx_witness_eq tx hw, hw]
    unfold isWitnessFormatted
    rw [List.drop_left' (u32LE_length tx.version)]
    simp
  · have hwf : hasWitness tx = false := by simpa using hw
    rw [serializeTx_legacy_eq tx hwf, hwf]
    obtain ⟨b, t, hcs, hb⟩ := compactSize_head_pos tx.txIn.length
      (by cases htx : tx.txIn with
          | nil => exact absurd htx hne
          | cons a l => simp [htx])
    unfold isWitnessFormatted
    rw [List.drop_left' (u32LE_length tx.version), hcs]
    simp [hb]

theorem mapMOption_length {α β : Type} (f : α → Option β) (l : List α) (r : List β)
    (h : mapMOption f l = some r) : r.length = l.length := by
  induction l generalizing r with
  | nil =>
    simp only [mapMOption, Option.some.injEq] at h
    simp [← h]
  | cons a as ih =>
    simp only [mapMOption, Option.bind_eq_bind] at h
    cases hfa : f a with
    | none => rw [hfa] at h; simp at h
    | some b =>
      rw [hfa] at h
      simp only [Option.some_bind] at h
      cases hbs : mapMOption f as with
      | none => rw [hbs] at h; simp at h
      | some bs =>
        rw [hbs] at h
        simp only [Option.some_bind, Option.some.injEq] at h
        subst h
        simp [ih bs hbs]

theorem mapIdxAux_length {α β : Type} (f : Nat → α → β) (k : Nat) (l : List α) :
    (mapIdxAux f k l).length = l.length := by
  induction l generalizing k <;> simp [mapIdxAux, *]

theorem mapIdxAux_get {α β : Type} (f : Nat → α → β) (k : Nat) (l : List α)
    (n : Nat) (hn : n < (mapIdxAux f k l).length) (hn2 : n < l.length) :
    (mapIdxAux f k l).get ⟨n, hn⟩ = f (k + n) (l.get ⟨n, hn2⟩) := by
  induction l generalizing k n with
  | nil => simp at hn2
  | cons a as ih =>
    cases n with
    | zero => simp [mapIdxAux]
    | succ m =>
      have hm : m < as.length := by simpa using hn2
      have hm1 : m < (mapIdxAux f (k + 1) as).length := by
        rw [mapIdxAux_length]; exact hm
      simp only [mapIdxAux_cons, List.get_cons_succ]
      rw [ih (k + 1) m hm1 hm]
      congr 1
      omega

theorem parseOutputs_spec (nIn : Nat) (os : List TxOut) (j : Nat) (res : List Operation)
    (h : parseOutputs nIn j os = some res) :
    res.length = os.length ∧ ∀ n (hn : n < res.length),
      (res.get ⟨n, hn⟩).index = nIn + j + n ∧
      (res.get ⟨n, hn⟩).networkIndex = some (j + n) ∧
      (res.get ⟨n, hn⟩).typ = OpType.output := by
  induction os generalizing j res with
  | nil =>
    simp only [parseOutputs, Option.some.injEq] at h
    subst h
    exact ⟨rfl, fun n hn => by simp at hn⟩
  | cons o os ih =>
    simp only [parseOutputs, Option.bind_eq_bind] at h
    cases hcl : classifyScript o.pkScript with
    | none => rw [hcl] at h; simp at h
    | some a =>
      rw [hcl] at h
      simp only [Option.some_bind] at h
      cases hrec : parseOutputs nIn (j + 1) os with
      | none => rw [hrec] at h; simp at h
      | some rest =>
        rw [hrec] at h
        simp only [Option.some_bind, Option.some.injEq] at h
        subst h
        obtain ⟨hlen, hget⟩ := ih (j + 1) rest hrec
        refine ⟨by simp [hlen], fun n hn => ?_⟩
        cases n with
        | zero =>
          refine ⟨by simp, by simp, by simp⟩
        | succ m =>
          have hm : m < rest.length := by
            simp only [List.length_cons] at hn
            omega
          obtain ⟨h1, h2, h3⟩ := hget m hm
          refine ⟨?_, ?_, ?_⟩ <;> simp only [List.get_cons_succ, h1, h2, h3]
          · omega
          · congr 1
            omega


theorem parse_index_shape (ins : List TxIn) (amounts : List Int) (addrs : List Address)
    (souts res : List Operation)
    (hA : amounts.length = ins.length) (hD : addrs.length = ins.length)
    (hres : res = mapIdxAux (fun k (x : (TxIn × Int) × Address) =>
      (⟨k, some k, OpType.input, x.2, x.1.2, some x.1.1.prevOut⟩ : Operation)) 0
      ((ins.zip amounts).zip addrs) ++ souts)
    (hspec : ∀ n (hn : n < souts.length),
      (souts.get ⟨n, hn⟩).index = ins.length + n ∧
      (souts.get ⟨n, hn⟩).networkIndex = some n ∧
      (souts.get ⟨n, hn⟩).typ = OpType.output) :
    ∃ nIn, nIn ≤ res.length ∧
      (∀ k (hk : k < res.length), (res.get ⟨k, hk⟩).index = k) ∧
      (∀ k (hk : k < res.length), k < nIn →
        (res.get ⟨k, hk⟩).typ = OpType.input ∧ (res.get ⟨k, hk⟩).networkIndex = some k) ∧
      (∀ k (hk : k < res.length), nIn ≤ k →
        (res.get ⟨k, hk⟩).typ = OpType.output ∧
        (res.get ⟨k, hk⟩).networkIndex = some (k - nIn)) := by
  have hzlen : (((ins.zip amounts).zip addrs)).length = ins.length := by
    simp [List.length_zip, hA, hD]
  have hilen : (mapIdxAux (fun k (x : (TxIn × Int) × Address) =>
      (⟨k, some k, OpType.input, x.2, x.1.2, some x.1.1.prevOut⟩ : Operation)) 0
      ((ins.zip amounts).zip addrs)).length = ins.length := by
    simp only [mapIdxList, mapIdxAux_length, hzlen]
  have hreslen : res.length = ins.length + souts.length := by
    simp [hres, hilen]
  have hgetL : ∀ k (hk : k < res.length), k < ins.length →
      (res.get ⟨k, hk⟩).index = k ∧ (res.get ⟨k, hk⟩).typ = OpType.input ∧
      (res.get ⟨k, hk⟩).networkIndex = some k := by
    intro k hk hkin
    have hk1 : k < (mapIdxAux (fun k (x : (TxIn × Int) × Address) =>
        (⟨k, some k, OpType.input, x.2, x.1.2, some x.1.1.prevOut⟩ : Operation)) 0
        ((ins.zip amounts).zip addrs)).length := by rw [hilen]; exact hkin
    have hk2 : k < ((ins.zip amounts).zip addrs).length := by rw [hzlen]; exact hkin
    have hget : res.get ⟨k, hk⟩ = (mapIdxAux (fun k (x : (TxIn × Int) × Address) =>
        (⟨k, some k, OpType.input, x.2, x.1.2, some x.1.1.prevOut⟩ : Operation)) 0
        ((ins.zip amounts).zip addrs)).get ⟨k, hk1⟩ := by
      subst hres
      simp [List.get_eq_getElem, List.getElem_append_left (hilen ▸ hkin)]
    rw [hget, mapIdxAux_get _ 0 _ k hk1 hk2]
    simp
  have hgetR : ∀ k (hk : k < res.length), ins.length ≤ k →
      (res.get ⟨k, hk⟩).index = k ∧ (res.get ⟨k, hk⟩).typ = OpType.output ∧
      (res.get ⟨k, hk⟩).networkIndex = some (k - ins.length) := by
    intro k hk hkout
    have hks : k - ins.length < souts.length := by omega
    have hget : res.get ⟨k, hk⟩ = souts.get ⟨k - ins.length, hks⟩ := by
      subst hres
      simp [List.get_eq_getElem, List.getElem_append_right (hilen ▸ hkout), hilen]
    obtain ⟨h1, h2, h3⟩ := hspec (k - ins.length) hks
    rw [hget]
    refine ⟨?_, h3, h2⟩
    rw [h1]
    omega
  refine ⟨ins.length, by omega, ?_, ?_, ?_⟩
  · intro k hk
    by_cases hkin : k < ins.length
    · exact (hgetL k hk hkin).1
    · exact (hgetR k hk (by omega)).1
  · intro k hk hkin
    exact ⟨(hgetL k hk hkin).2.1, (hgetL k hk hkin).2.2⟩
  · intro k hk hkout
    exact ⟨(hgetR k hk hkout).2.1, (hgetR k hk hkout).2.2⟩


/-- C10: every operation Parse returns carries a network index beside its
operation index: the indices number all operations consecutively from 0
with all inputs before all outputs, the network index of an input is its
zero-based position among the inputs, and the network index of an output
is its zero-based position among the outputs. -/
theorem parse_network_indices (env : Envelope) (signed : Bool)
    (res : List Operation) (signers : List Address)
    (h : parsePhase env signed = some (res, signers)) :
    ∃ nIn, nIn ≤ res.length ∧
      (∀ k (hk : k < res.length), (res.get ⟨k, hk⟩).index = k) ∧
      (∀ k (hk : k < res.length), k < nIn →
        (res.get ⟨k, hk⟩).typ = OpType.input ∧ (res.get ⟨k, hk⟩).networkIndex = some k) ∧
      (∀ k (hk : k < res.length), nIn ≤ k →
        (res.get ⟨k, hk⟩).typ = OpType.output ∧
        (res.get ⟨k, hk⟩).networkIndex = some (k - nIn)) := by
  unfold parsePhase at h
  cases hdt : deserializeTx env.txBytes with
  | none => rw [hdt] at h; simp at h
  | some tx =>
    rw [hdt] at h
    simp only [Option.bind_eq_bind, Option.some_bind] at h
    by_cases hg : env.inputAmounts.length = tx.txIn.length ∧
        env.inputAddresses.length = tx.txIn.length
    swap
    · rw [if_neg hg] at h; simp at h
    rw [if_pos hg] at h
    have hfin : ∀ (addrs : List Address), addrs.length = tx.txIn.length →
        ∀ (souts : List Operation), parseOutputs tx.txIn.length 0 tx.txOut = some souts →
        res = mapIdxList (fun k x =>
          (⟨k, some k, OpType.input, x.2, x.1.2, some x.1.1.prevOut⟩ : Operation))
          ((tx.txIn.zip env.inputAmounts).zip addrs) ++ souts →
        ∃ nIn, nIn ≤ res.length ∧
          (∀ k (hk : k < res.length), (res.get ⟨k, hk⟩).index = k) ∧
          (∀ k (hk : k < res.length), k < nIn →
            (res.get ⟨k, hk⟩).typ = OpType.input ∧
            (res.get ⟨k, hk⟩).networkIndex = some k) ∧
          (∀ k (hk : k < res.length), nIn ≤ k →
            (res.get ⟨k, hk⟩).typ = OpType.output ∧
            (res.get ⟨k, hk⟩).networkIndex = some (k - nIn)) := by
      intro addrs hlen souts hpo hres
      obtain ⟨hslen, hsget⟩ := parseOutputs_spec tx.txIn.length tx.txOut 0 souts hpo
      exact parse_index_shape tx.txIn env.inputAmounts addrs souts res hg.1 hlen hres
        (fun n hn => by
          obtain ⟨h1, h2, h3⟩ := hsget n hn
          refine ⟨?_, ?_, h3⟩
          · rw [h1]; omega
          · rw [h2]; simp)
    cases signed with
    | false =>
      simp only [Bool.false_eq_true, if_neg, Option.some_bind, reduceIte] at h
      cases hpo : parseOutputs tx.txIn.length 0 tx.txOut with
      | none => rw [hpo] at h; simp at h
      | some souts =>
        rw [hpo] at h
        simp only [Option.some_bind, Option.some.injEq, Prod.mk.injEq] at h
        exact hfin env.inputAddresses hg.2 souts hpo h.1.symm
    | true =>
      simp only [reduceIte] at h
      cases ha : mapMOption recoverInputAddress tx.txIn with
      | none => rw [ha] at h; simp at h
      | some addrs =>
        rw [ha] at h
        simp only [Option.some_bind] at h
        cases hpo : parseOutputs tx.txIn.length 0 tx.txOut with
        | none => rw [hpo] at h; simp at h
        | some souts =>
          rw [hpo] at h
          simp only [Option.some_bind, Option.some.injEq, Prod.mk.injEq] at h
          exact hfin addrs (mapMOption_length _ _ _ ha) souts hpo h.1.symm

/-- C8: Combine fails unless the signatures match the inputs one-to-one;
on success each legacy input's scriptSig pushes the signature plus
sighash-type byte and then the public key, each witness input gets an empty
scriptSig and the two-item witness stack, and the combined serialization is
witness-formatted (marker and flag bytes) exactly when some input is a
witness input. -/
theorem combine_unlock_shape (env : Envelope) (sigs : List SignaturePair) (tx : MsgTx)
    (hdes : deserializeTx env.txBytes = some tx)
    (hlen1 : sigs.length = tx.txIn.length)
    (hlen2 : env.scriptMetas.length = tx.txIn.length)
    (hne : tx.txIn ≠ []) :
    (∀ sigs2 : List SignaturePair, sigs2.length ≠ tx.txIn.length →
      combinePhase env sigs2 = none) ∧
    ∃ env2, combinePhase env sigs = some env2 ∧
      env2.txBytes = serializeTx
        ⟨tx.version, (tx.txIn.zip (env.scriptMetas.zip sigs)).map
          (fun x => applyUnlock x.2.1 x.2.2 x.1), tx.txOut, tx.lockTime⟩ true ∧
      List.Forall₂ (fun (x : TxIn × Address × SignaturePair) (i2 : TxIn) =>
        (x.2.1.kind = ScriptKind.p2pkh →
          i2.scriptSig = pushData (x.2.2.sig ++ [sighashAllByte]) ++ pushData x.2.2.pubKey ∧
          i2.witness = []) ∧
        (x.2.1.kind = ScriptKind.p2wpkh →
          i2.scriptSig = [] ∧
          i2.witness = [x.2.2.sig ++ [sighashAllByte], x.2.2.pubKey]))
        (tx.txIn.zip (env.scriptMetas.zip sigs))
        ((tx.txIn.zip (env.scriptMetas.zip sigs)).map
          (fun x => applyUnlock x.2.1 x.2.2 x.1)) ∧
      (isWitnessFormatted env2.txBytes = true ↔
        ∃ p ∈ tx.txIn.zip (env.scriptMetas.zip sigs),
          p.2.1.kind = ScriptKind.p2wpkh) := by
  constructor
  · intro sigs2 hbad
    unfold combinePhase
    rw [hdes]
    simp only [Option.bind_eq_bind, Option.some_bind]
    rw [if_neg (by intro hcon; exact hbad hcon.1)]
  · have htx2ne : ((tx.txIn.zip (env.scriptMetas.zip sigs)).map
        (fun x => applyUnlock x.2.1 x.2.2 x.1)) ≠ [] := by
      intro hcon
      have : ((tx.txIn.zip (env.scriptMetas.zip sigs)).map
          (fun x => applyUnlock x.2.1 x.2.2 x.1)).length = 0 := by rw [hcon]; rfl
      simp only [List.length_map, List.length_zip, hlen1, hlen2] at this
      have h0 : tx.txIn.length = 0 := by omega
      exact hne (List.length_eq_zero.mp h0)
    refine ⟨{ env with txBytes := serializeTx ⟨tx.version, (tx.txIn.zip (env.scriptMetas.zip sigs)).map (fun x => applyUnlock x.2.1 x.2.2 x.1), tx.txOut, tx.lockTime⟩ true }, ?_, rfl, ?_, ?_⟩
    · unfold combinePhase
      rw [hdes]
      simp only [Option.bind_eq_bind, Option.some_bind]
      rw [if_pos ⟨hlen1, hlen2⟩]
    · apply forall₂_map_self
      intro x hx
      cases hk : x.2.1.kind <;>
        simp [applyUnlock, hk]
    · show isWitnessFormatted (serializeTx ⟨tx.version, (tx.txIn.zip (env.scriptMetas.zip sigs)).map (fun x => applyUnlock x.2.1 x.2.2 x.1), tx.txOut, tx.lockTime⟩ true) = true ↔ _
      rw [isWitnessFormatted_serializeTx ⟨tx.version, (tx.txIn.zip (env.scriptMetas.zip sigs)).map (fun x => applyUnlock x.2.1 x.2.2 x.1), tx.txOut, tx.lockTime⟩ htx2ne]
      simp only [hasWitness, List.any_eq_true]
      constructor
      · rintro ⟨x, hx, hw⟩
        obtain ⟨p, hp, rfl⟩ := List.mem_map.mp hx
        refine ⟨p, hp, ?_⟩
        cases hk : p.2.1.kind
        · simp [applyUnlock, hk] at hw
        · rfl
      · rintro ⟨p, hp, hk⟩
        exact ⟨applyUnlock p.2.1 p.2.2 p.1, List.mem_map.mpr ⟨p, hp, rfl⟩,
          by simp [applyUnlock, hk]⟩


theorem u64LE_inj (v v2 : Nat) (hv : v < 2 ^ 64) (hv2 : v2 < 2 ^ 64)
    (h : u64LE v = u64LE v2) : v = v2 := by
  have hc := congrArg bytesToNatLE h
  rwa [bytesToNatLE_u64LE v hv, bytesToNatLE_u64LE v2 hv2] at hc

theorem witnessPreimage_value_inj (tx : MsgTx) (idx : Nat) (kh : List Nat)
    (v v2 : Nat) (hv : v < 2 ^ 64) (hv2 : v2 < 2 ^ 64) (hne : v ≠ v2) :
    witnessPreimage tx idx kh v ≠ witnessPreimage tx idx kh v2 := by
  intro heq
  apply hne
  apply u64LE_inj v v2 hv hv2
  simp only [witnessPreimage, List.append_assoc] at heq
  have h1 := List.append_cancel_left heq
  have h2 := List.append_cancel_left h1
  have h3 := List.append_cancel_left h2
  have h4 := List.append_cancel_left h3
  have h5 := List.append_cancel_left h4
  exact List.append_cancel_right h5


/-! ## Concrete data of the sampled construction scenario -/

/-- The compressed public key of the witness construction test. -/
def tPubKey : List Nat := [3, 37, 201, 164, 37, 39, 137, 179, 29, 187, 52, 84, 236, 100, 126, 149, 22, 231, 197, 150, 188, 222, 43, 213, 218, 113, 166, 15, 171, 134, 68, 228, 56]

/-- The consumed outpoint hash (wire byte order) of the construction test. -/
def tPrevHash : List Nat := [127, 156, 245, 11, 2, 221, 82, 88, 248, 12, 213, 195, 67, 115, 2, 224, 39, 221, 19, 54, 23, 42, 32, 205, 200, 3, 5, 197, 165, 87, 65, 177]

/-- The witness program (hash160 of `tPubKey`) locking the consumed coin. -/
def tInKeyHash : List Nat := [192, 5, 176, 10, 208, 117, 211, 11, 137, 167, 182, 91, 125, 173, 136, 153, 186, 106, 156, 85]

/-- Key hash of the first output of the construction test. -/
def tOutKeyHash1 : List Nat := [136, 206, 105, 37, 248, 81, 58, 35, 76, 5, 201, 34, 238, 147, 63, 34, 19, 35, 5, 32]

/-- Key hash of the second output of the construction test. -/
def tOutKeyHash2 : List Nat := [148, 7, 38, 89, 92, 65, 252, 160, 180, 129, 12, 98, 153, 26, 217, 210, 137, 238, 184, 40]

/-- The raw 64-byte signature of the construction test. -/
def tSigBytes : List Nat := [37, 135, 110, 200, 185, 245, 29, 52, 58, 90, 86, 172, 84, 156, 12, 130, 128, 5, 239, 69, 235, 233, 218, 22, 109, 182, 69, 192, 145, 87, 34, 63, 76, 208, 139, 114, 120, 168, 136, 154, 129, 19, 89, 21, 188, 225, 13, 30, 243, 187, 146, 178, 23, 248, 26, 13, 231, 231, 159, 251, 61, 253, 106, 197]

/-- The `INPUT` operation of the witness scenario, owned by the address the
test public key derives. -/
def tIns : List Operation :=
  [⟨0, none, OpType.input, ⟨ScriptKind.p2wpkh, hash160 tPubKey⟩, -1000000, some ⟨tPrevHash, 1⟩⟩]

/-- The two `OUTPUT` operations of the witness scenario. -/
def tOuts : List Operation :=
  [⟨1, none, OpType.output, ⟨ScriptKind.p2wpkh, tOutKeyHash1⟩, 954843, none⟩,
   ⟨2, none, OpType.output, ⟨ScriptKind.p2wpkh, tOutKeyHash2⟩, 44657, none⟩]

/-- The resolved coin scripts of the witness scenario. -/
def tMetas : List Address := tIns.map (fun o => o.account)

/-- The matching signature list of the witness scenario. -/
def tSigs : List SignaturePair := [⟨tSigBytes, tPubKey⟩]

set_option maxRecDepth 200000 in
theorem unsigned_round_trip_witness :
    tMetas.length = tIns.length ∧
    ∃ pls res,
      payloadsPhase (tIns ++ tOuts) tMetas = some (payloadEnv tIns tOuts tMetas, pls) ∧
      parsePhase (payloadEnv tIns tOuts tMetas) false = some (res, []) ∧
      res.map opCore = (tIns ++ tOuts).map opCore :=
  ⟨by decide, unsigned_round_trip tIns tOuts tMetas (by decide) (by decide) (by decide)
    (by decide) (by decide) (by simp [InOpOk, tIns, tPrevHash])
    (by simp [OutOpOk, tOuts, tOutKeyHash1, tOutKeyHash2]) (by decide)⟩

set_option maxRecDepth 200000 in
theorem signed_round_trip_witness :
    tMetas = tIns.map (fun o => o.account) ∧ List.Forall₂ SigOk tIns tSigs ∧
    ∃ pls res,
      payloadsPhase (tIns ++ tOuts) tMetas = some (payloadEnv tIns tOuts tMetas, pls) ∧
      combinePhase (payloadEnv tIns tOuts tMetas) tSigs =
        some (combinedEnv tIns tOuts tMetas tSigs) ∧
      parsePhase (combinedEnv tIns tOuts tMetas tSigs) true =
        some (res, dedupKeepFirst (tIns.map (fun o => o.account))) ∧
      res.map opCore = (tIns ++ tOuts).map opCore :=
  ⟨rfl, .cons ⟨rfl, by decide, by decide⟩ .nil,
    signed_round_trip tIns tOuts tMetas tSigs (by decide) (by decide) (by decide)
      (by decide) (by decide) (by simp [InOpOk, tIns, tPrevHash])
      (by simp [OutOpOk, tOuts, tOutKeyHash1, tOutKeyHash2]) rfl
      (.cons ⟨rfl, by decide, by decide⟩ .nil)⟩


/-- C2: the computed fee is the maximum of the minimum-rate floor and the
multiplier-scaled rate product; whenever the effective rate
`feeRatePerByte * multiplier` lies below the floor rate, the fee equals
`minFeeRatePerByte * size`, independent of the multiplier, so the
multiplier can never push the fee below the protocol floor. -/
theorem fee_floor (feeRatePerByte minFeeRatePerByte multiplier : ℚ) (size : Nat) :
    computeFee feeRatePerByte minFeeRatePerByte size multiplier =
      max (minFeeRatePerByte * size) (feeRatePerByte * size * multiplier) ∧
    (feeRatePerByte * multiplier < minFeeRatePerByte →
      computeFee feeRatePerByte minFeeRatePerByte size multiplier =
        minFeeRatePerByte * size) := by
  refine ⟨rfl, fun h => ?_⟩
  unfold computeFee
  apply max_eq_left
  calc feeRatePerByte * size * multiplier
      = feeRatePerByte * multiplier * size := by ring
    _ ≤ minFeeRatePerByte * size :=
        mul_le_mul_of_nonneg_right (le_of_lt h) (Nat.cast_nonneg size)

theorem fee_floor_witness :
    (3 : ℚ) * 2 < 1500 ∧ computeFee 3 1500 220 2 = 1500 * (220 : Nat) :=
  ⟨rateTimesMultiplierBelowFloor, (fee_floor 3 1500 2 220).2 rateTimesMultiplierBelowFloor⟩

/-- The key hash used in the sighash divergence scenario. -/
def c3KeyHash : List Nat := List.replicate 20 9

/-- A minimal one-input transaction skeleton for the sighash scenarios. -/
def c3Tx : MsgTx :=
  ⟨1, [⟨⟨List.replicate 32 0, 0⟩, [], 4294967295, []⟩],
    [⟨5, [0, 20] ++ List.replicate 20 7⟩], 0⟩

set_option maxRecDepth 400000 in
/-- C3: the legacy sighash digest ignores the spent amount entirely (it is
literally the same function of the remaining arguments), while the witness
sighash preimage determines the spent amount, so two runs differing only in
the 64-bit amount produce distinct preimages -- and on the concrete skeleton
`c3Tx` the two witness digests indeed differ. -/
theorem sighash_amount_divergence :
    (∀ (tx : MsgTx) (idx : Nat) (kh : List Nat) (v v2 : Nat),
      signingDigest ScriptKind.p2pkh tx idx kh v =
        signingDigest ScriptKind.p2pkh tx idx kh v2) ∧
    (∀ (tx : MsgTx) (idx : Nat) (kh : List Nat) (v v2 : Nat),
      v < 2 ^ 64 → v2 < 2 ^ 64 → v ≠ v2 →
      witnessPreimage tx idx kh v ≠ witnessPreimage tx idx kh v2) ∧
    witnessSighash c3Tx 0 c3KeyHash 1000000 ≠ witnessSighash c3Tx 0 c3KeyHash 999999 := by
  refine ⟨fun tx idx kh v v2 => rfl, witnessPreimage_value_inj, ?_⟩
  decide

theorem sighash_amount_divergence_witness :
    (1000000 : Nat) < 2 ^ 64 ∧ (999999 : Nat) < 2 ^ 64 ∧ (1000000 : Nat) ≠ 999999 ∧
    witnessPreimage c3Tx 0 c3KeyHash 1000000 ≠ witnessPreimage c3Tx 0 c3KeyHash 999999 :=
  ⟨by decide, by decide, by decide,
    sighash_amount_divergence.2.1 c3Tx 0 c3KeyHash 1000000 999999
      (by decide) (by decide) (by decide)⟩

/-- C4: the Hash phase of any well-formed serialized transaction is the
reversed double-SHA-256 of the witness-free serialization, so two
transactions agreeing on everything but their witness stacks hash
identically. -/
theorem hash_excludes_witness (t1 t2 : MsgTx) (h1 : WfTx t1) (h2 : WfTx t2)
    (hsame : stripWitness t1 = stripWitness t2) :
    hashPhase (serializeTx t1 true) =
      some ((hash256 (serializeTx t1 false)).reverse) ∧
    hashPhase (serializeTx t1 true) = hashPhase (serializeTx t2 true) := by
  have e1 : deserializeTx (serializeTx t1 true) = some t1 := deserializeTx_serializeTx t1 h1
  have e2 : deserializeTx (serializeTx t2 true) = some t2 := deserializeTx_serializeTx t2 h2
  constructor
  · simp [hashPhase, e1]
  · simp [hashPhase, e1, e2]
    rw [serializeTx_false_strip t1, serializeTx_false_strip t2, hsame]

/-- A small transaction carrying a two-item witness stack. -/
def c4Tx : MsgTx :=
  ⟨1, [⟨⟨List.replicate 32 0, 0⟩, [], 0, [[1, 2], [3]]⟩],
    [⟨5, [0, 20] ++ List.replicate 20 7⟩], 0⟩

set_option maxRecDepth 200000 in
theorem hash_excludes_witness_witness :
    WfTx c4Tx ∧ WfTx (stripWitness c4Tx) ∧
      stripWitness c4Tx = stripWitness (stripWitness c4Tx) ∧
      (hashPhase (serializeTx c4Tx true) =
        some ((hash256 (serializeTx c4Tx false)).reverse) ∧
      hashPhase (serializeTx c4Tx true) =
        hashPhase (serializeTx (stripWitness c4Tx) true)) :=
  ⟨by decide, by decide, by decide,
    hash_excludes_witness c4Tx (stripWitness c4Tx) (by decide) (by decide) (by decide)⟩

/-- The `INPUT` and `OUTPUT` operations of the witness fee scenario: one
pay-to-witness-pubkey-hash input of 1,000,000 units and two outputs of
954,843 and 44,657 units. -/
def witnessScenarioOps : List Operation :=
  [⟨0, none, OpType.input, ⟨ScriptKind.p2wpkh, tInKeyHash⟩, -1000000, some ⟨tPrevHash, 1⟩⟩,
   ⟨1, none, OpType.output, ⟨ScriptKind.p2wpkh, tOutKeyHash1⟩, 954843, none⟩,
   ⟨2, none, OpType.output, ⟨ScriptKind.p2wpkh, tOutKeyHash2⟩, 44657, none⟩]

/-- C5: on the witness scenario with fee multiplier 3/4, Preprocess
estimates 224 bytes (the witness input priced at its own marginal cost),
and Metadata suggests fee 1,065 when the node reports ten times the minimum
rate and 142 when it reports exactly the minimum rate. -/
theorem witness_concrete_scenario :
    ∃ opts, preprocessPhase testnetTunables witnessScenarioOps (3 / 4) = some opts ∧
      opts.estimatedSize = 224 ∧
      (metadataPhase testnetTunables
        ⟨312, fun _ => [], 10 * testnetTunables.minFeeRatePerByte, []⟩ opts).suggestedFee
        = 1065 ∧
      (metadataPhase testnetTunables
        ⟨312, fun _ => [], testnetTunables.minFeeRatePerByte, []⟩ opts).suggestedFee = 142 := by
  refine ⟨⟨[⟨tPrevHash, 1⟩], [-1000000], 224, 3 / 4⟩, rfl, rfl, ?_, ?_⟩
  · norm_num [metadataPhase, computeFee, testnetTunables]
  · norm_num [metadataPhase, computeFee, testnetTunables]

/-- C7: Metadata requests the replay-protection block hash exactly
`replayProtectionDepth = 100` blocks below the node's best height; in
particular with best height 312 the hash is requested at height 212. -/
theorem metadata_replay_depth (cfg : ChainTunables) (client : NodeClient)
    (opts : PreprocessOptions) :
    (metadataPhase cfg client opts).requestedHashHeight =
      client.bestBlockHeight - 100 ∧
    (metadataPhase cfg client opts).replayBlockHash =
      client.hashAtHeight (client.bestBlockHeight - 100) ∧
    (client.bestBlockHeight = 312 →
      (metadataPhase cfg client opts).requestedHashHeight = 212) := by
  refine ⟨rfl, rfl, fun h => ?_⟩
  simp [metadataPhase, replayProtectionDepth, h]

/-- A node client at best height 312 for the replay-depth scenario. -/
def c7Client : NodeClient := ⟨312, fun _ => [], 2, []⟩

/-- Preprocess output fed to the replay-depth scenario. -/
def c7Opts : PreprocessOptions := ⟨[], [], 224, 3 / 4⟩

theorem metadata_replay_depth_witness :
    c7Client.bestBlockHeight = 312 ∧
    (metadataPhase testnetTunables c7Client c7Opts).requestedHashHeight = 212 :=
  ⟨rfl, (metadata_replay_depth testnetTunables c7Client c7Opts).2.2 rfl⟩

/-- The legacy address of the Combine scenario. -/
def c8Addr : Address := ⟨ScriptKind.p2pkh, List.replicate 20 3⟩

/-- A minimal one-input unsigned transaction for the Combine scenario. -/
def c8Tx : MsgTx :=
  ⟨1, [⟨⟨List.replicate 32 0, 0⟩, [], 4294967295, []⟩], [⟨5, lockingScript c8Addr⟩], 0⟩

/-- The unsigned envelope of the Combine scenario. -/
def c8Env : Envelope := ⟨serializeTx c8Tx true, [-5], [c8Addr], [c8Addr]⟩

/-- The signature list of the Combine scenario. -/
def c8Sigs : List SignaturePair := [⟨[1, 2, 3], [4, 5, 6]⟩]

set_option maxRecDepth 200000 in
theorem combine_unlock_shape_witness :
    deserializeTx c8Env.txBytes = some c8Tx ∧ c8Sigs.length = c8Tx.txIn.length ∧
    c8Env.scriptMetas.length = c8Tx.txIn.length ∧ c8Tx.txIn ≠ [] ∧
    ((∀ sigs2 : List SignaturePair, sigs2.length ≠ c8Tx.txIn.length →
      combinePhase c8Env sigs2 = none) ∧
    ∃ env2, combinePhase c8Env c8Sigs = some env2 ∧
      env2.txBytes = serializeTx
        ⟨c8Tx.version, (c8Tx.txIn.zip (c8Env.scriptMetas.zip c8Sigs)).map
          (fun x => applyUnlock x.2.1 x.2.2 x.1), c8Tx.txOut, c8Tx.lockTime⟩ true ∧
      List.Forall₂ (fun (x : TxIn × Address × SignaturePair) (i2 : TxIn) =>
        (x.2.1.kind = ScriptKind.p2pkh →
          i2.scriptSig = pushData (x.2.2.sig ++ [sighashAllByte]) ++ pushData x.2.2.pubKey ∧
          i2.witness = []) ∧
        (x.2.1.kind = ScriptKind.p2wpkh →
          i2.scriptSig = [] ∧
          i2.witness = [x.2.2.sig ++ [sighashAllByte], x.2.2.pubKey]))
        (c8Tx.txIn.zip (c8Env.scriptMetas.zip c8Sigs))
        ((c8Tx.txIn.zip (c8Env.scriptMetas.zip c8Sigs)).map
          (fun x => applyUnlock x.2.1 x.2.2 x.1)) ∧
      (isWitnessFormatted env2.txBytes = true ↔
        ∃ p ∈ c8Tx.txIn.zip (c8Env.scriptMetas.zip c8Sigs),
          p.2.1.kind = ScriptKind.p2wpkh)) :=
  ⟨by decide, by decide, by decide, by decide,
    combine_unlock_shape c8Env c8Sigs c8Tx (by decide) (by decide) (by decide) (by decide)⟩

/-- The legacy address of the Parse network-index scenario. -/
def c10Addr : Address := ⟨ScriptKind.p2pkh, List.replicate 20 4⟩

/-- A one-input, two-output transaction for the network-index scenario. -/
def c10Tx : MsgTx :=
  ⟨1, [⟨⟨List.replicate 32 0, 0⟩, [], 4294967295, []⟩],
    [⟨7, lockingScript c10Addr⟩, ⟨8, lockingScript c10Addr⟩], 0⟩

/-- The unsigned envelope of the network-index scenario. -/
def c10Env : Envelope := ⟨serializeTx c10Tx true, [-20], [c10Addr], [c10Addr]⟩

/-- The three operations Parse returns on the network-index scenario. -/
def c10Res : List Operation :=
  [⟨0, some 0, OpType.input, c10Addr, -20, some ⟨List.replicate 32 0, 0⟩⟩,
   ⟨1, some 0, OpType.output, c10Addr, 7, none⟩,
   ⟨2, some 1, OpType.output, c10Addr, 8, none⟩]

set_option maxRecDepth 200000 in
theorem parse_network_indices_witness :
    parsePhase c10Env false = some (c10Res, []) ∧
    ∃ nIn, nIn ≤ c10Res.length ∧
      (∀ k (hk : k < c10Res.length), (c10Res.get ⟨k, hk⟩).index = k) ∧
      (∀ k (hk : k < c10Res.length), k < nIn →
        (c10Res.get ⟨k, hk⟩).typ = OpType.input ∧
        (c10Res.get ⟨k, hk⟩).networkIndex = some k) ∧
      (∀ k (hk : k < c10Res.length), nIn ≤ k →
        (c10Res.get ⟨k, hk⟩).typ = OpType.output ∧
        (c10Res.get ⟨k, hk⟩).networkIndex = some (k - nIn)) :=
  ⟨by decide, parse_network_indices c10Env false c10Res [] (by decide)⟩

end RosettaRavencoin
